import Mathlib

/-
Verification of the vcsloc commit-graph synchronization and persistence
engine. The definitions below are a shallow embedding of the Go sources:

  * loc/run.go        - GetRepoInfo: graph indexing, children traversal, tips
  * loc/db.go         - VcsBaseInfo/VcsRefs/VcsCommits sections, dirty flags,
                        doLoadData / doLoadDataRequired / doSaveDataLines
  * loc/loadsave.go   - SaveOneGraph / LoadOneGraph and the CommitHeap
                        (container/heap) used for stable save ordering

Go strings that are parsed positionally are modelled as lists of
characters (`Str`); hash keys that are only compared for equality are
modelled as `String`.  Go maps are modelled as association lists with
overwrite-on-insert semantics.  Loops that Go runs until a condition are
modelled with an explicit fuel parameter; termination theorems show the
fuel can always be chosen large enough.  `log.Fatalf` is modelled as an
error result.
-/

set_option maxRecDepth 4000
set_option linter.unusedVariables false

namespace Vcsloc

/-- Byte/character strings for the persistence layer (Go slices strings
by byte position; all persisted content here is treated char-wise). -/
abbrev Str := List Char

/-! ## Commits and the in-memory graph (loc/run.go, loc/types.go) -/

/-- `Commit` from loc/run.go: fetched fields plus the computed
`children` list. -/
structure Commit where
  hash : String
  timestamp : Int
  authorName : String
  authorEmail : String
  parents : List String
  children : List String
deriving DecidableEq, Repr

/-- The Go zero value of `Commit`, returned by map indexing on a missing
key. -/
def zeroCommit : Commit := ⟨"", 0, "", "", [], []⟩

/-- `vcs.Ref` from vcs/git.go. -/
structure Ref where
  Hash : String
  Refname : String
deriving DecidableEq, Repr

/-- The commit graph: Go `map[string]Commit`, as an association list
with unique keys maintained by `gInsert`. -/
abbrev Graph := List (String × Commit)

/-- The key set of the graph map. -/
def gKeys (g : Graph) : List String := g.map Prod.fst

/-- Map lookup, `graph[h]` with its `ok` flag. -/
def gFind (g : Graph) (k : String) : Option Commit :=
  match g with
  | [] => none
  | (k2, c) :: rest => if k2 = k then some c else gFind rest k

/-- Go map indexing `graph[h]`: zero value when the key is missing. -/
def gGet (g : Graph) (k : String) : Commit := (gFind g k).getD zeroCommit

/-- Overwrite the value stored under an existing key (`graph[k] = c`
when `k` is already present). -/
def gSet (g : Graph) (k : String) (c : Commit) : Graph :=
  g.map (fun p => if p.1 = k then (k, c) else p)

/-- Go map assignment `graph[k] = c`: overwrite or append. -/
def gInsert (g : Graph) (k : String) (c : Commit) : Graph :=
  if (gKeys g).contains k then gSet g k c else g ++ [(k, c)]

/-- The parents of `graph[k]` (empty for a missing key, like Go's zero
value). -/
def parentsOf (g : Graph) (k : String) : List String := (gGet g k).parents

/-- The children of `graph[k]` (empty for a missing key). -/
def childrenOf (g : Graph) (k : String) : List String := (gGet g k).children

/-- One fetched log record, as parsed by GetRepoInfo from the
`git log --all` pretty format (children are not fetched). -/
structure LogEntry where
  hash : String
  timestamp : Int
  authorName : String
  authorEmail : String
  parents : List String
deriving DecidableEq, Repr

/-- One iteration of the indexing loop: `graph[commitHash] = commit`. -/
def indexStep (g : Graph) (e : LogEntry) : Graph :=
  gInsert g e.hash ⟨e.hash, e.timestamp, e.authorName, e.authorEmail, e.parents, []⟩

/-- loc/run.go lines 93-122: index all fetched commit records into the
graph map; `children` starts out as Go `nil`. -/
def indexGraph (logs : List LogEntry) : Graph :=
  logs.foldl indexStep []

/-! ## graphTips and dangling refs (loc/run.go lines 139-161) -/

/-- Go map assignment for the `graphTips` map (`map[string]string`). -/
def tInsert (m : List (String × String)) (k v : String) : List (String × String) :=
  if (m.map Prod.fst).contains k then
    m.map (fun p => if p.1 = k then (k, v) else p)
  else m ++ [(k, v)]

/-- One iteration of the ref partition loop: a ref whose hash is in the
graph goes into graphTips, a dangling ref is appended to missingRefs. -/
def graphTipsStep (g : Graph) (acc : List (String × String) × List String)
    (r : Ref) : List (String × String) × List String :=
  if (gKeys g).contains r.Hash then (tInsert acc.1 r.Hash r.Refname, acc.2)
  else (acc.1, acc.2 ++ [r.Hash])

/-- loc/run.go lines 139-161: partition the refs into `graphTips` (hash
present in the graph) and `missingRefs` (dangling refs, reported but
skipped).  Returns `(graphTips, missingRefs)`. -/
def makeGraphTips (g : Graph) (refs : List Ref) :
    List (String × String) × List String :=
  refs.foldl (graphTipsStep g) ([], [])

/-- The key list of the `graphTips` map; loc/run.go lines 165-168 seeds
`walkRefs` with these. -/
def tipKeys (m : List (String × String)) : List String := m.map Prod.fst

/-! ## The children traversal (loc/run.go lines 171-222) -/

/-- loc/run.go lines 190-199: append `hash` to the children of a
parent commit, but only if it is not already there (the `hasChild`
scan). -/
def addChild (c : Commit) (hash : String) : Commit :=
  if c.children.contains hash then c
  else { c with children := c.children ++ [hash] }

/-- loc/run.go lines 185-200: add `hash` to the children of each of its
parents (only once each); a parent hash missing from the graph is the
fatal "wtf %s not in graph?" error. -/
def addChildEdges (g : Graph) (hash : String) : List String → Except String Graph
  | [] => .ok g
  | parentHash :: rest =>
    if (gKeys g).contains parentHash then
      addChildEdges (gSet g parentHash (addChild (gGet g parentHash) hash)) hash rest
    else
      .error parentHash

/-- Outcome of one iteration of the traversal loop: either the loop is
finished (clean end, or the fatal missing-parent error), or it
continues from a new state. -/
inductive TravOut
  | done (r : Except String (Graph × List String))
  | next (g : Graph) (v : List String) (q : List String) (c : Option String)
deriving Repr

/-- One iteration of loc/run.go lines 171-222.  State: the graph, the
`visited` set, the `walkRefs` work queue, and the hash currently walked
by the inner `for hash != ""` loop (`none` between walks).  A `none`
current hash pops the queue (or ends the loop); otherwise the body adds
`hash` to the children of each of its parents (fatal if a parent is not
in the graph), stops the walk at an already-visited hash, marks `hash`
visited, stops at a root, and otherwise follows the first parent while
queueing the remaining parents. -/
def travStep (g : Graph) (v : List String) (q : List String)
    (c : Option String) : TravOut :=
  match c with
  | none =>
    match q with
    | [] => .done (.ok (g, v))
    | h :: rest => .next g v rest (some h)
  | some hash =>
    if hash = "" then .next g v q none
    else
      match addChildEdges g hash (parentsOf g hash) with
      | .error e => .done (.error e)
      | .ok g2 =>
        match v.contains hash with
        | true => .next g2 v q none
        | false =>
          match parentsOf g hash with
          | [] => .next g2 (hash :: v) q none
          | p :: ps => .next g2 (hash :: v) (q ++ ps) (some p)

/-- The traversal loop with an explicit fuel parameter (one unit per
iteration); `none` means the fuel ran out (the termination theorem
shows enough fuel always exists). -/
def travGo (fuel : Nat) (g : Graph) (visited : List String)
    (queue : List String) (cur : Option String) :
    Option (Except String (Graph × List String)) :=
  match fuel with
  | 0 => none
  | fuel + 1 =>
    match travStep g visited queue cur with
    | .done r => some r
    | .next g2 v2 q2 c2 => travGo fuel g2 v2 q2 c2

/-- Total number of parent edges in the graph; used for the traversal
fuel bound. -/
def parSum (g : Graph) : Nat := (g.map (fun p => p.2.parents.length)).sum

/-- Number of graph keys not yet visited. -/
def unvisited (g : Graph) (visited : List String) : Nat :=
  ((gKeys g).filter (fun k => !visited.contains k)).length

/-- Weight of the current-hash register in the loop measure. -/
def curWeight : Option String → Nat
  | some _ => 1
  | none => 0

/-- Decreasing measure for the traversal loop. -/
def travMeasure (g : Graph) (visited : List String)
    (queue : List String) (cur : Option String) : Nat :=
  2 * (parSum g + 2) * unvisited g visited + 2 * queue.length + curWeight cur

/-- The result of GetRepoInfo's graph phase. -/
structure RepoInfo where
  graph : Graph
  visited : List String
  tips : List String
  missing : List String
deriving DecidableEq, Repr

deriving instance DecidableEq for Except

/-- loc/run.go GetRepoInfo, graph construction phase (lines 89-251):
index the log records, partition refs into graph tips and dangling
refs, derive children by traversal, then keep as tips only the refs
whose commit ended up with no children. -/
def GetRepoInfo (logs : List LogEntry) (refs : List Ref) (fuel : Nat) :
    Option (Except String RepoInfo) :=
  let graph := indexGraph logs
  let tm := makeGraphTips graph refs
  let walkRefs := tipKeys tm.1
  match travGo fuel graph [] walkRefs none with
  | none => none
  | some (.error e) => some (.error e)
  | some (.ok (gf, vf)) =>
    let tips := (tipKeys tm.1).filter (fun k => (childrenOf gf k).isEmpty)
    some (.ok ⟨gf, vf, tips, tm.2⟩)

/-- The hashes reached by the traversal: seeds from the work queue and,
recursively, the (nonempty) parents of reached commits.  The empty hash
is never walked (the inner loop runs `for hash != ""`). -/
inductive RTrav (g : Graph) (init : List String) : String → Prop
  | seed {h : String} : h ∈ init → h ≠ "" → RTrav g init h
  | step {h p : String} : RTrav g init h → p ∈ parentsOf g h → p ≠ "" →
      RTrav g init p

/-! ## Decimal formatting and parsing (fmt %d / strconv.Atoi) -/

/-- The ASCII digit for `n % 10`. -/
def digitChar (n : Nat) : Char := Char.ofNat (48 + n)

/-- Digit accumulation for `natDec`, with fuel (one digit per unit). -/
def natDecGo : Nat → Nat → Str → Str
  | 0, _, acc => acc
  | fuel + 1, n, acc =>
    if n < 10 then digitChar (n % 10) :: acc
    else natDecGo fuel (n / 10) (digitChar (n % 10) :: acc)

/-- Decimal representation of a natural number (fmt `%d`). -/
def natDec (n : Nat) : Str := natDecGo (n + 1) n []

/-- Decimal representation of an integer (fmt `%d`). -/
def intDec (i : Int) : Str := if i < 0 then '-' :: natDec (-i).toNat else natDec i.toNat

/-- ASCII digit test. -/
def isDigitCh (c : Char) : Bool := 48 ≤ c.toNat && c.toNat ≤ 57

/-- Value of a digit string. -/
def decVal (cs : Str) : Nat := cs.foldl (fun a c => a * 10 + (c.toNat - 48)) 0

/-- Parse an unsigned decimal numeral: nonempty, digits only. -/
def parseNat (cs : Str) : Option Nat :=
  if cs ≠ [] ∧ cs.all isDigitCh then some (decVal cs) else none

/-- strconv.Atoi: optional sign, then digits. -/
def parseInt (cs : Str) : Option Int :=
  match cs with
  | '-' :: rest => (parseNat rest).map (fun n => -(n : Int))
  | '+' :: rest => (parseNat rest).map (fun n => (n : Int))
  | _ => (parseNat cs).map (fun n => (n : Int))

/-! ## key=value helpers (db.go getkvstr/getkvint, loadsave.go getstr/getint) -/

/-- db.go getkvstr / loadsave.go getstr: if the line starts with the
prefix, the value is the rest of the line. -/
def getkv (pre : Str) (text : Str) : Option Str :=
  if pre.isPrefixOf text then some (text.drop pre.length) else none

/-- db.go getkvint / loadsave.go getint: getkvstr then strconv.Atoi. -/
def getkvI (pre : Str) (text : Str) : Option Int := (getkv pre text).bind parseInt

/-- strings.Split on a single-character separator. -/
def splitSep (sep : Char) : Str → List Str
  | [] => [[]]
  | ch :: rest =>
    match splitSep sep rest with
    | [] => [[]]
    | w :: ws => if ch = sep then [] :: w :: ws else (ch :: w) :: ws

/-- strings.Join with a separator. -/
def joinSep (sep : Str) : List Str → Str
  | [] => []
  | [x] => x
  | x :: y :: rest => x ++ sep ++ joinSep sep (y :: rest)

/-- strings.Split(s, " "). -/
def splitSpace (s : Str) : List Str := splitSep ' ' s

/-- strings.Join(xs, " "). -/
def joinSpace (xs : List Str) : Str := joinSep [' '] xs

/-- fmt %v of a bool. -/
def boolStr (b : Bool) : Str := if b then "true".data else "false".data

/-! ## File system model for the persistence layer -/

/-- State of one section file.  `unreadable` is a file that os.Stat sees
but os.Open cannot open (for example, no read permission). -/
inductive FileState
  | absent
  | unreadable
  | present (lines : List Str)
deriving DecidableEq, Repr

/-- The database directory: section file name to file state.  Lines are
stored without their trailing newline (bufio.Scanner strips it). -/
abbrev FS := String → FileState

/-- Update one file. -/
def fsSet (fs : FS) (name : String) (st : FileState) : FS :=
  fun n => if n = name then st else fs n

/-- Run a load callback over the scanned lines, stopping at the first
error (db.go doLoadData loop body). -/
def runCallback (step : σ → Str → Except String σ) : σ → List Str → Except String σ
  | s, [] => .ok s
  | s, l :: rest =>
    match step s l with
    | .error e => .error e
    | .ok s2 => runCallback step s2 rest

/-- db.go doLoadData: an os.Open failure (absent or unreadable file) is
swallowed (`return nil`) and the section keeps its initial (empty)
state; otherwise every line is fed to the callback. -/
def doLoadData (fs : FS) (name : String) (step : σ → Str → Except String σ)
    (init : σ) : Except String σ :=
  match fs name with
  | .present lines => runCallback step init lines
  | _ => .ok init

/-- db.go doLoadDataRequired: an os.Stat failure (file absent) is an
error; otherwise defer to doLoadData. -/
def doLoadDataRequired (fs : FS) (name : String) (step : σ → Str → Except String σ)
    (init : σ) : Except String σ :=
  match fs name with
  | .absent => .error "stat failed"
  | _ => doLoadData fs name step init

/-- db.go doSaveDataLines: os.Create then write all lines.  The write
outcome oracle `wr` says whether the file can be created/written; on
failure the directory is unchanged and an error is returned. -/
def doSaveDataLines (fs : FS) (wr : String → Bool) (name : String)
    (lines : List Str) : FS × Bool :=
  if wr name then (fsSet fs name (.present lines), true) else (fs, false)

/-- db.go doSaveDataN: os.Create then write N callback strings.  (In the
source, WriteString errors inside the loop are dropped; only the
os.Create failure is reported, which is what `wr` models.) -/
def doSaveDataN (fs : FS) (wr : String → Bool) (name : String)
    (lines : List Str) : FS × Bool :=
  if wr name then (fsSet fs name (.present lines), true) else (fs, false)

/-! ## VcsHeader and OpenDb (db.go lines 58-150) -/

/-- db.go VcsHeader: the write-once database header. -/
structure VcsHeader where
  repoPath : Str
  vcs : Str
deriving DecidableEq, Repr

/-- Callback of (*VcsHeader).Load: try `repoPath=` then `vcs=`; any
other line is "invalid data in VcsHeader". -/
def hdrStep (h : VcsHeader) (line : Str) : Except String VcsHeader :=
  match getkv "repoPath=".data line with
  | some v => .ok { h with repoPath := v }
  | none =>
    match getkv "vcs=".data line with
    | some v => .ok { h with vcs := v }
    | none => .error "invalid data in VcsHeader"

/-- db.go (*VcsHeader).Load: the header is the only section loaded with
doLoadDataRequired. -/
def VcsHeaderLoad (fs : FS) : Except String VcsHeader :=
  doLoadDataRequired fs ".header" hdrStep ⟨[], []⟩

/-- The two header lines written by (*VcsHeader).Save. -/
def headerLines (h : VcsHeader) : List Str :=
  ["repoPath=".data ++ h.repoPath, "vcs=".data ++ h.vcs]

/-- os.Stat result for the database directory path. -/
inductive PathState
  | noEntry
  | isFile
  | isDir
deriving DecidableEq, Repr

/-- db.go OpenDb: open an existing database (directory present: load and
validate the header, fatal if that errors) or create a new one (needs
--vcs and --repo, writes an initial header).  log.Fatalf is modelled as
an error result. -/
def OpenDb (dbPath : String) (repoPath vcs : Str) (pathSt : PathState)
    (fs : FS) (wr : String → Bool) : Except String (VcsHeader × FS) :=
  if dbPath = "" then .error "Specify a database path with --db=<path>"
  else if pathSt = .isDir then
    match VcsHeaderLoad fs with
    | .error _ => .error "Database is corrupt?"
    | .ok hdr => .ok (hdr, fs)
  else if vcs = [] then .error "Specify a version control system with --vcs=<type>"
  else if repoPath = [] then .error "Specify a repository path with --repo=<path>"
  else if pathSt = .isFile then .error "File in the way"
  else
    let hdr : VcsHeader := ⟨repoPath, vcs⟩
    let r := doSaveDataLines fs wr ".header" (headerLines hdr)
    if r.2 then .ok (hdr, r.1) else .error "Could not write db hdr"

/-! ## VcsBaseInfo (db.go lines 154-194) -/

/-- db.go VcsBaseInfo: the staleness signature on the repo. -/
structure VcsBaseInfo where
  numRepoObjects : Int
  numRepoCommits : Int
  refsSignature : Str
  graphUpToDate : Bool
  dirty : Bool
deriving DecidableEq, Repr

/-- The four lines written by (*VcsBaseInfo).Save. -/
def infoLines (h : VcsBaseInfo) : List Str :=
  ["numRepoObjects=".data ++ intDec h.numRepoObjects,
   "numRepoCommits=".data ++ intDec h.numRepoCommits,
   "refsSignature=".data ++ h.refsSignature,
   "graphUpToDate=".data ++ boolStr h.graphUpToDate]

/-- db.go (*VcsBaseInfo).Save, lines 186-194: `h.dirty = false` is
executed first, then the write is attempted; the boolean is the
error-free flag of the write. -/
def VcsBaseInfoSave (h : VcsBaseInfo) (fs : FS) (wr : String → Bool) :
    VcsBaseInfo × FS × Bool :=
  let h2 := { h with dirty := false }
  let r := doSaveDataLines fs wr ".info" (infoLines h2)
  (h2, r.1, r.2)

/-! ## VcsRefs (db.go lines 198-231) -/

/-- db.go (*VcsRefs).Load line parsing: `hash := line[:40]`,
`refname := line[41:]`.  Go slicing panics when the line is shorter
than 41 bytes; that partiality is the `none` case. -/
def parseRefLine (line : Str) : Option Ref :=
  if 41 ≤ line.length then
    some ⟨String.mk (line.take 40), String.mk (line.drop 41)⟩
  else none

/-- db.go VcsRefs section. -/
structure VcsRefs where
  refs : List Ref
  dirty : Bool
deriving DecidableEq, Repr

/-- Load callback for the refs file: parse a line and append one ref; a
line shorter than 41 characters makes the Go code panic with a slice
bounds error, modelled as an error result. -/
def refsStep (refs : List Ref) (line : Str) : Except String (List Ref) :=
  match parseRefLine line with
  | some r => .ok (refs ++ [r])
  | none => .error "slice bounds out of range"

/-- db.go (*VcsRefs).Load: reset to empty, not dirty, then read the
refs file (missing file tolerated by doLoadData). -/
def VcsRefsLoad (fs : FS) : Except String VcsRefs :=
  match doLoadData fs "refs" refsStep [] with
  | .ok rs => .ok ⟨rs, false⟩
  | .error e => .error e

/-- One saved ref line: `<hash> <name>`. -/
def refLine (r : Ref) : Str := r.Hash.data ++ ' ' :: r.Refname.data

/-- db.go (*VcsRefs).Save, lines 226-231: `h.dirty = false` first, then
the write. -/
def VcsRefsSave (h : VcsRefs) (fs : FS) (wr : String → Bool) :
    VcsRefs × FS × Bool :=
  let h2 := { h with dirty := false }
  let r := doSaveDataN fs wr "refs" (h2.refs.map refLine)
  (h2, r.1, r.2)

/-! ## VcsCommits (db.go lines 235-370) -/

/-- db.go VcsCommits section (the err field is modelled by the
short-circuiting save chain below). -/
structure VcsCommits where
  hashes : List String
  commits : List Commit
  hashFile : String
  commitFiles : List String
  dirty : Bool
deriving DecidableEq, Repr

/-- One record written by (*VcsCommits).SaveCommits (a single callback
string containing seven lines, newlines embedded). -/
def commitRecordStr (i : Nat) (c : Commit) : Str :=
  "-- ".data ++ natDec i ++ '\n' ::
  ("hash=".data ++ c.hash.data) ++ '\n' ::
  ("timestamp=".data ++ intDec c.timestamp) ++ '\n' ::
  ("authorName=".data ++ c.authorName.data) ++ '\n' ::
  ("authorEmail=".data ++ c.authorEmail.data) ++ '\n' ::
  ("parents=".data ++ joinSpace (c.parents.map String.data)) ++ '\n' ::
  ("children=".data ++ joinSpace (c.children.map String.data)) ++ ['\n']

/-- db.go (*VcsCommits).Save, lines 261-265: clear dirty, then run the
SaveCommits / SaveHashes / SaveBase chain, stopping at the first error
(the err field). -/
def VcsCommitsSave (h : VcsCommits) (fs : FS) (wr : String → Bool) :
    VcsCommits × FS × Bool :=
  let h2 := { h with dirty := false, commitFiles := ["commits.commits"] }
  let r1 := doSaveDataN fs wr "commits.commits"
    (h2.commits.enum.map (fun p => commitRecordStr p.1 p.2))
  if r1.2 = false then (h2, r1.1, false)
  else
    let r2 := doSaveDataN r1.1 wr h2.hashFile (h2.hashes.map String.data)
    if r2.2 = false then (h2, r2.1, false)
    else
      let r3 := doSaveDataLines r2.1 wr "commits"
        ["hashFile=".data ++ h2.hashFile.data,
         "commitFiles=".data ++ joinSep ", ".data (h2.commitFiles.map String.data)]
      (h2, r3.1, r3.2)

/-- The three persisted sections of VcsDb2 that the aggregate Save
touches. -/
structure VcsDb2 where
  info : VcsBaseInfo
  refs : VcsRefs
  commits : VcsCommits
deriving Repr

/-- db.go (*VcsDb2).Save, lines 106-118: each section is written only
if its dirty flag is set; returned errors are discarded. -/
def VcsDb2Save (db : VcsDb2) (fs : FS) (wr : String → Bool) : VcsDb2 × FS :=
  let s1 := if db.info.dirty then
      (let r := VcsBaseInfoSave db.info fs wr; (r.1, r.2.1))
    else (db.info, fs)
  let s2 := if db.refs.dirty then
      (let r := VcsRefsSave db.refs s1.2 wr; (r.1, r.2.1))
    else (db.refs, s1.2)
  let s3 := if db.commits.dirty then
      (let r := VcsCommitsSave db.commits s2.2 wr; (r.1, r.2.1))
    else (db.commits, s2.2)
  (⟨s1.1, s2.1, s3.1⟩, s3.2)

/-! ## The sync decision (spec section 4.1) -/

/-- Modelled from the spec: pairwise, order-sensitive comparison of the
stored ref list with the live ref list (same length and, at every
index, the hash and the name both match).  The function IsUpToDate this
supports is declared by the spec but absent from src/ (only the
VcsBaseInfo signature struct and its comment exist there). -/
def refsMatch : List Ref → List Ref → Bool
  | [], [] => true
  | r :: rs, s :: ss => (r.Hash == s.Hash && r.Refname == s.Refname) && refsMatch rs ss
  | _, _ => false

/-- Modelled from the spec: `IsUpToDate(storedInfo, liveObjectCount,
liveRefs) -> bool` compares storedInfo.numRepoObjects with the live
object count (exact), the stored ref list with the live ref list
(pairwise, order-sensitive) and requires storedInfo.graphUpToDate; it
returns true only if all three hold.  Absent from src/. -/
def IsUpToDate (storedInfo : VcsBaseInfo) (liveObjectCount : Int)
    (storedRefs liveRefs : List Ref) : Bool :=
  (storedInfo.numRepoObjects == liveObjectCount) &&
  refsMatch storedRefs liveRefs && storedInfo.graphUpToDate

/-- Modelled from the spec: the sync engine fetches the commit log
exactly when IsUpToDate returns false (sync short-circuit). -/
def syncFetchesCommitLog (storedInfo : VcsBaseInfo) (liveObjectCount : Int)
    (storedRefs liveRefs : List Ref) : Bool :=
  !(IsUpToDate storedInfo liveObjectCount storedRefs liveRefs)

/-! ## The commit heap and SaveOneGraph/LoadOneGraph (loadsave.go) -/

/-- loadsave.go CommitHeap.Less: ordered by author timestamp. -/
def commitLess (a b : Commit) : Bool := decide (a.timestamp < b.timestamp)

/-- Slice indexing on the heap backing slice. -/
def lGet (l : List Commit) (i : Nat) : Commit := l.getD i zeroCommit

/-- CommitHeap.Swap. -/
def lSwap (l : List Commit) (i j : Nat) : List Commit :=
  (l.set i (lGet l j)).set j (lGet l i)

/-- container/heap up (sift up), as in the Go standard library; the
fuel is structural (the index shrinks to its parent each step, so
`j + 1` units always suffice). -/
def heapUpGo : Nat → List Commit → Nat → List Commit
  | 0, l, _ => l
  | fuel + 1, l, j =>
    if (j - 1) / 2 = j then l
    else if commitLess (lGet l j) (lGet l ((j - 1) / 2)) then
      heapUpGo fuel (lSwap l ((j - 1) / 2) j) ((j - 1) / 2)
    else l

/-- container/heap up at index j. -/
def heapUp (l : List Commit) (j : Nat) : List Commit := heapUpGo (j + 1) l j

/-- container/heap down (sift down) restricted to the first n entries,
as in the Go standard library (the smaller child is preferred; on a tie
the left child); the index at least doubles each step, so `n` units of
fuel always suffice. -/
def heapDownGo : Nat → List Commit → Nat → Nat → List Commit
  | 0, l, _, _ => l
  | fuel + 1, l, i, n =>
    if 2 * i + 1 < n then
      if 2 * i + 2 < n ∧ commitLess (lGet l (2 * i + 2)) (lGet l (2 * i + 1)) = true then
        if commitLess (lGet l (2 * i + 2)) (lGet l i) then
          heapDownGo fuel (lSwap l i (2 * i + 2)) (2 * i + 2) n
        else l
      else
        if commitLess (lGet l (2 * i + 1)) (lGet l i) then
          heapDownGo fuel (lSwap l i (2 * i + 1)) (2 * i + 1) n
        else l
    else l

/-- container/heap down from index i within the first n entries. -/
def heapDown (l : List Commit) (i n : Nat) : List Commit := heapDownGo n l i n

/-- heap.Push: append, then sift the last element up. -/
def heapPush (l : List Commit) (x : Commit) : List Commit :=
  heapUp (l ++ [x]) l.length

/-- heap.Pop: swap the root with the last element, sift the new root
down within the first n entries, then remove and return the last
element. -/
def heapPop (l : List Commit) : Commit × List Commit :=
  let n := l.length - 1
  let l3 := heapDown (lSwap l 0 n) 0 n
  (lGet l3 n, l3.take n)

/-- SaveOneGraph heap construction: heap.Init on the fresh empty heap
is a no-op, then every commit of the graph (in map iteration order) is
pushed. -/
def buildHeap (values : List Commit) : List Commit := values.foldl heapPush []

/-- SaveOneGraph drain loop: pop until the heap is empty (each pop
drops one element, so `l.length` units of fuel suffice). -/
def drainHeapGo : Nat → List Commit → List Commit
  | 0, _ => []
  | fuel + 1, l =>
    if l.isEmpty = true then [] else (heapPop l).1 :: drainHeapGo fuel (heapPop l).2

/-- The drained (timestamp-sorted) record sequence. -/
def drainHeap (l : List Commit) : List Commit := drainHeapGo l.length l

/-- The notes save-file artifact: "merge" for more than one parent,
"branch" for more than one child, comma-joined. -/
def notesFor (e : Commit) : Str :=
  joinSep ", ".data ((if 1 < e.parents.length then ["merge".data] else []) ++
    (if 1 < e.children.length then ["branch".data] else []))

/-- The eight lines SaveOneGraph writes for record number i. -/
def saveRecordLines (i : Nat) (e : Commit) : List Str :=
  ["-- ".data ++ natDec i,
   "hash=".data ++ e.hash.data,
   "timestamp=".data ++ intDec e.timestamp,
   "name=".data ++ e.authorName.data,
   "email=".data ++ e.authorEmail.data,
   "notes=".data ++ notesFor e,
   "parents=".data ++ joinSpace (e.parents.map String.data),
   "children=".data ++ joinSpace (e.children.map String.data)]

/-- loadsave.go SaveOneGraph, lines 400-447: push every commit (in map
iteration order, the argument list) through the timestamp min-heap,
then emit the records in pop order.  Result: the file lines, without
their trailing newlines. -/
def SaveOneGraphLines (values : List Commit) : List Str :=
  ((drainHeap (buildHeap values)).enum.map (fun p => saveRecordLines p.1 p.2)).flatten

/-- A line list as file bytes (each line plus its newline). -/
def fileOfLines (lines : List Str) : Str := (lines.map (fun l => l ++ ['\n'])).flatten

/-- The bytes SaveOneGraph writes. -/
def SaveOneGraphFile (values : List Commit) : Str := fileOfLines (SaveOneGraphLines values)

/-- loadsave.go LoadOneGraph record loop: each record is the marker
line `-- i` (checked against the running count) and seven field lines;
notes are discarded; empty parents/children strings decode to nil.  A
parse failure or a truncated record is the fatal "Bad data" path,
modelled as none. -/
def loadGraphGo (i : Nat) : List Str → Option (List Commit)
  | [] => some []
  | l1 :: l2 :: l3 :: l4 :: l5 :: l6 :: l7 :: l8 :: rest => do
    let id ← getkvI "-- ".data l1
    if id = (i : Int) then
      let hashS ← getkv "hash=".data l2
      let ts ← getkvI "timestamp=".data l3
      let nameS ← getkv "name=".data l4
      let emailS ← getkv "email=".data l5
      let _notes ← getkv "notes=".data l6
      let parentsS ← getkv "parents=".data l7
      let childrenS ← getkv "children=".data l8
      let parents := if parentsS = [] then [] else (splitSpace parentsS).map String.mk
      let children := if childrenS = [] then [] else (splitSpace childrenS).map String.mk
      let c : Commit := ⟨String.mk hashS, ts, String.mk nameS, String.mk emailS, parents, children⟩
      (loadGraphGo (i + 1) rest).map (fun cs => c :: cs)
    else none
  | _ => none

/-- loadsave.go LoadOneGraph: parse all records and index them into a
graph map keyed by hash. -/
def LoadOneGraph (lines : List Str) : Option Graph :=
  (loadGraphGo 0 lines).map (fun recs => recs.foldl (fun g c => gInsert g c.hash c) [])

/-- The values of a graph map (what `for _, e := range graph` iterates
over, in some order). -/
def graphValues (g : Graph) : List Commit := g.map Prod.snd

/-- Heap order on the backing slice: every child has a timestamp at
least its parent's (the container/heap invariant for CommitHeap.Less). -/
def heapOrd (l : List Commit) : Prop :=
  ∀ i k : Nat, k < l.length → (k = 2 * i + 1 ∨ k = 2 * i + 2) →
    (lGet l i).timestamp ≤ (lGet l k).timestamp

/-- Example refs file: one 57-character line whose byte 40 is not a
space (the loader never looks at it). -/
def refsFileExample : List Str := ["0123456789012345678901234567890123456789#refs/heads/main".data]

/-- Example database directory containing only that refs file. -/
def refsFsExample : FS := fun n => if n = "refs" then .present refsFileExample else .absent

/-- Example database directory with no files at all. -/
def emptyFsExample : FS := fun _ => .absent

/-- Example database directory whose header exists but cannot be
opened. -/
def lockedHeaderFsExample : FS :=
  fun n => if n = ".header" then .unreadable else .absent

/-- Example log: three commits a <- b <- c (c is the head). -/
def logsExample : List LogEntry :=
  [⟨"c", 3, "", "", ["b"]⟩, ⟨"b", 2, "", "", ["a"]⟩, ⟨"a", 1, "", "", []⟩]

/-- Example refs: main points at c. -/
def refsExample : List Ref := [⟨"c", "main"⟩]

/-- The annotated graph GetRepoInfo builds from `logsExample`. -/
def annotatedGraphExample : Graph :=
  [("c", ⟨"c", 3, "", "", ["b"], []⟩),
   ("b", ⟨"b", 2, "", "", ["a"], ["c"]⟩),
   ("a", ⟨"a", 1, "", "", [], ["b"]⟩)]

/-- The full GetRepoInfo result for `logsExample` and `refsExample`. -/
def repoInfoExample : RepoInfo :=
  ⟨annotatedGraphExample, ["a", "b", "c"], ["c"], []⟩

/-- Three commits sharing one timestamp (heap ties), in the insertion
orders used to exhibit order dependence of the saved bytes. -/
def tieA : Commit := ⟨"a", 5, "", "", [], []⟩

/-- Second tied commit. -/
def tieB : Commit := ⟨"b", 5, "", "", [], []⟩

/-- Third tied commit. -/
def tieC : Commit := ⟨"c", 5, "", "", [], []⟩

/-- A two-commit value list with distinct timestamps and well-formed
fields. -/
def saveValuesExample : List Commit :=
  [⟨"b", 2, "n", "e", ["a"], []⟩, ⟨"a", 1, "", "", [], ["b"]⟩]

/-- The same records in the other map iteration order. -/
def saveValuesShuffled : List Commit :=
  [⟨"a", 1, "", "", [], ["b"]⟩, ⟨"b", 2, "n", "e", ["a"], []⟩]

/-! # Theorems -/

/-! ## Refs file parsing at fixed positions (C10) -/

theorem parseRefLine_long {line : Str} (h : 41 ≤ line.length) :
    parseRefLine line = some ⟨String.mk (line.take 40), String.mk (line.drop 41)⟩ := by
  simp [parseRefLine, h]

theorem parseRefLine_short {line : Str} (h : line.length < 41) :
    parseRefLine line = none := by
  simp only [parseRefLine, ite_eq_right_iff]
  omega

theorem runCallback_refsStep (lines : List Str) :
    ∀ acc, (∀ l ∈ lines, 41 ≤ l.length) →
    runCallback refsStep acc lines =
      .ok (acc ++ lines.map (fun l =>
        (⟨String.mk (l.take 40), String.mk (l.drop 41)⟩ : Ref))) := by
  induction lines with
  | nil => intro acc _; simp [runCallback]
  | cons l rest ih =>
    intro acc h
    have h1 : 41 ≤ l.length := h l (by simp)
    simp only [runCallback, refsStep, parseRefLine_long h1]
    rw [ih _ (fun x hx => h x (by simp [hx]))]
    simp

/-- C10: (*VcsRefs).Load parses each line of the refs file at fixed
positions: the hash is characters 0 through 39 and the name everything
from index 41 on, with no validation of the separator character at
index 40.  When every line has at least 41 characters the loader
succeeds and appends exactly one ref per line; shorter lines fall
outside the guarantee (the slicing is partial, modelled by `none`). -/
theorem vcsRefsLoad_fixed_positions (fs : FS) (lines : List Str)
    (hfs : fs "refs" = .present lines) (hlen : ∀ l ∈ lines, 41 ≤ l.length) :
    VcsRefsLoad fs =
      .ok ⟨lines.map (fun l => ⟨String.mk (l.take 40), String.mk (l.drop 41)⟩), false⟩ ∧
    ∀ l : Str, l.length < 41 → parseRefLine l = none := by
  refine ⟨?_, fun l hl => parseRefLine_short hl⟩
  simp [VcsRefsLoad, doLoadData, hfs, runCallback_refsStep lines [] hlen]

theorem vcsRefsLoad_fixed_positions_witness :
    (refsFsExample "refs" = .present refsFileExample ∧
      ∀ l ∈ refsFileExample, 41 ≤ l.length) ∧
    (VcsRefsLoad refsFsExample =
      .ok ⟨refsFileExample.map (fun l => ⟨String.mk (l.take 40), String.mk (l.drop 41)⟩), false⟩ ∧
    ∀ l : Str, l.length < 41 → parseRefLine l = none) :=
  ⟨⟨rfl, by decide⟩, vcsRefsLoad_fixed_positions refsFsExample refsFileExample rfl (by decide)⟩

/-! ## The sync decision IsUpToDate (C4) -/

theorem refsMatch_iff_eq : ∀ xs ys : List Ref, refsMatch xs ys = true ↔ xs = ys := by
  intro xs
  induction xs with
  | nil => intro ys; cases ys <;> simp [refsMatch]
  | cons r rs ih =>
    intro ys
    cases ys with
    | nil => simp [refsMatch]
    | cons s ss =>
      cases r; cases s
      simp [refsMatch, ih, Ref.mk.injEq, Bool.and_eq_true, beq_iff_eq, and_assoc]

theorem list_ref_eq_iff (sr lr : List Ref) :
    sr = lr ↔ (sr.length = lr.length ∧
      ∀ (i : Nat) (h1 : i < sr.length) (h2 : i < lr.length),
        (sr.get ⟨i, h1⟩).Hash = (lr.get ⟨i, h2⟩).Hash ∧
        (sr.get ⟨i, h1⟩).Refname = (lr.get ⟨i, h2⟩).Refname) := by
  constructor
  · rintro rfl
    exact ⟨rfl, fun i h1 h2 => ⟨rfl, rfl⟩⟩
  · rintro ⟨hl, hp⟩
    apply List.ext_get hl
    intro i h1 h2
    obtain ⟨hh, hn⟩ := hp i h1 h2
    cases hr1 : sr.get ⟨i, h1⟩
    cases hr2 : lr.get ⟨i, h2⟩
    rw [hr1, hr2] at hh hn
    simp_all

/-- C4: IsUpToDate (modelled from the spec, the function is absent from
src/) returns true exactly when the stored object count equals the live
one, the stored and live ref lists match pairwise and
order-sensitively, and graphUpToDate is set; and the commit log is
fetched exactly when IsUpToDate is false. -/
theorem isUpToDate_spec (info : VcsBaseInfo) (n : Int) (sr lr : List Ref) :
    (IsUpToDate info n sr lr = true ↔
      (info.numRepoObjects = n ∧
       (sr.length = lr.length ∧
        ∀ (i : Nat) (h1 : i < sr.length) (h2 : i < lr.length),
          (sr.get ⟨i, h1⟩).Hash = (lr.get ⟨i, h2⟩).Hash ∧
          (sr.get ⟨i, h1⟩).Refname = (lr.get ⟨i, h2⟩).Refname) ∧
       info.graphUpToDate = true)) ∧
    (syncFetchesCommitLog info n sr lr = false ↔ IsUpToDate info n sr lr = true) := by
  constructor
  · rw [← list_ref_eq_iff, IsUpToDate]
    simp [refsMatch_iff_eq, and_assoc]
  · simp [syncFetchesCommitLog]

theorem isUpToDate_spec_witness :
    IsUpToDate ⟨3, 0, [], true, false⟩ 3 [⟨"a", "main"⟩] [⟨"a", "main"⟩] = true ∧
    syncFetchesCommitLog ⟨3, 0, [], true, false⟩ 3 [⟨"a", "main"⟩] [⟨"a", "main"⟩] = false :=
  have h := isUpToDate_spec ⟨3, 0, [], true, false⟩ 3 [⟨"a", "main"⟩] [⟨"a", "main"⟩]
  have h1 := h.1.mpr ⟨rfl, ⟨rfl, fun _ _ _ => ⟨rfl, rfl⟩⟩, rfl⟩
  ⟨h1, h.2.mpr h1⟩

/-! ## Dirty flags and failed saves (C6) -/

/-- C6 counterexample: with a write oracle that fails every write,
(*VcsBaseInfo).Save returns an error, yet the dirty flag is false
afterwards (the claim says a failed save must leave it set). -/
theorem save_failed_dirty_cleared_counterexample :
    (VcsBaseInfoSave ⟨0, 0, [], false, true⟩ (fun _ => .absent) (fun _ => false)).2.2 = false ∧
    (VcsBaseInfoSave ⟨0, 0, [], false, true⟩ (fun _ => .absent) (fun _ => false)).1.dirty = false :=
  ⟨rfl, rfl⟩

theorem vcsCommitsSave_dirty_false (h : VcsCommits) (fs : FS) (wr : String → Bool) :
    (VcsCommitsSave h fs wr).1.dirty = false := by
  simp only [VcsCommitsSave]
  split
  · rfl
  · split
    · rfl
    · rfl

/-- C6 amended: every section Save clears the in-memory dirty flag
unconditionally, before attempting the write; consequently a failed
write leaves the flag cleared, and a subsequent aggregate Save is a
no-op rather than a retry. -/
theorem save_clears_dirty_unconditionally :
    (∀ (h : VcsBaseInfo) (fs : FS) (wr : String → Bool),
      (VcsBaseInfoSave h fs wr).1.dirty = false) ∧
    (∀ (h : VcsRefs) (fs : FS) (wr : String → Bool),
      (VcsRefsSave h fs wr).1.dirty = false) ∧
    (∀ (h : VcsCommits) (fs : FS) (wr : String → Bool),
      (VcsCommitsSave h fs wr).1.dirty = false) ∧
    (∀ (db : VcsDb2) (fs : FS) (wr wr2 : String → Bool),
      VcsDb2Save (VcsDb2Save db fs wr).1 (VcsDb2Save db fs wr).2 wr2 =
        VcsDb2Save db fs wr) := by
  refine ⟨fun h fs wr => rfl, fun h fs wr => rfl, vcsCommitsSave_dirty_false, ?_⟩
  intro db fs wr wr2
  have h1 : (VcsDb2Save db fs wr).1.info.dirty = false := by
    by_cases hd : db.info.dirty <;> simp [VcsDb2Save, hd, VcsBaseInfoSave]
  have h2 : (VcsDb2Save db fs wr).1.refs.dirty = false := by
    by_cases hd : db.refs.dirty <;> simp [VcsDb2Save, hd, VcsRefsSave]
  have h3 : (VcsDb2Save db fs wr).1.commits.dirty = false := by
    by_cases hd : db.commits.dirty <;>
      simp [VcsDb2Save, hd, vcsCommitsSave_dirty_false]
  conv_lhs => rw [VcsDb2Save]
  simp [h1, h2, h3]

/-! ## Load tolerance and the header (C8) -/

theorem doLoadData_absent {σ : Type} (fs : FS) (name : String)
    (step : σ → Str → Except String σ) (init : σ) (h : fs name = .absent) :
    doLoadData fs name step init = .ok init := by
  simp [doLoadData, h]

theorem doLoadData_unreadable {σ : Type} (fs : FS) (name : String)
    (step : σ → Str → Except String σ) (init : σ) (h : fs name = .unreadable) :
    doLoadData fs name step init = .ok init := by
  simp [doLoadData, h]

/-- C8 amended: a missing non-header section file is treated as the
section being empty and the load succeeds; a missing header file on an
existing database directory is a fatal error; but an unreadable header
file that os.Stat still sees is silently treated as an empty header
(doLoadData swallows the open failure), not a fatal error. -/
theorem header_load_tolerance (dbPath : String) (r v : Str) (fs : FS)
    (wr : String → Bool) (hdb : dbPath ≠ "") :
    (fs "refs" = .absent → VcsRefsLoad fs = .ok ⟨[], false⟩) ∧
    (fs ".header" = .absent →
      OpenDb dbPath r v .isDir fs wr = .error "Database is corrupt?") ∧
    (fs ".header" = .unreadable →
      OpenDb dbPath r v .isDir fs wr = .ok (⟨[], []⟩, fs)) := by
  refine ⟨?_, ?_, ?_⟩
  · intro h
    simp [VcsRefsLoad, doLoadData_absent fs "refs" refsStep [] h]
  · intro h
    simp [OpenDb, hdb, VcsHeaderLoad, doLoadDataRequired, h]
  · intro h
    simp [OpenDb, hdb, VcsHeaderLoad, doLoadDataRequired, h, doLoadData]

theorem header_load_tolerance_witness :
    ("db" ≠ "") ∧
    (VcsRefsLoad emptyFsExample = .ok ⟨[], false⟩) ∧
    (OpenDb "db" [] [] .isDir emptyFsExample (fun _ => true) = .error "Database is corrupt?") ∧
    (OpenDb "db" [] [] .isDir lockedHeaderFsExample (fun _ => true) = .ok (⟨[], []⟩, lockedHeaderFsExample)) :=
  ⟨by decide,
   (header_load_tolerance "db" [] [] emptyFsExample (fun _ => true) (by decide)).1 rfl,
   (header_load_tolerance "db" [] [] emptyFsExample (fun _ => true) (by decide)).2.1 rfl,
   (header_load_tolerance "db" [] [] lockedHeaderFsExample (fun _ => true) (by decide)).2.2 rfl⟩

/-- C8 counterexample: an unreadable (but present) header on an
existing database directory does not abort OpenDb; the database opens
with an empty header. -/
theorem header_unreadable_counterexample :
    OpenDb "db" [] [] .isDir lockedHeaderFsExample (fun _ => true) =
      .ok (⟨[], []⟩, lockedHeaderFsExample) := by
  simp [OpenDb, VcsHeaderLoad, doLoadDataRequired, doLoadData, lockedHeaderFsExample]

/-! ## Graph map lemmas -/

theorem gKeys_gSet (g : Graph) (k : String) (c : Commit) :
    gKeys (gSet g k c) = gKeys g := by
  induction g with
  | nil => rfl
  | cons p rest ih =>
    obtain ⟨k2, c2⟩ := p
    simp only [gSet, List.map_cons, gKeys] at *
    by_cases hp : k2 = k
    · simp [hp, ih]
    · simp [hp, ih]

theorem gSet_not_mem {g : Graph} {k : String} (c : Commit) (h : k ∉ gKeys g) :
    gSet g k c = g := by
  induction g with
  | nil => rfl
  | cons p rest ih =>
    obtain ⟨k2, c2⟩ := p
    simp only [gKeys, List.map_cons, List.mem_cons, not_or] at h
    simp only [gSet, List.map_cons]
    rw [if_neg (fun hh : (k2, c2).1 = k => h.1 (by simpa using hh.symm))]
    exact congrArg _ (ih (by simpa [gKeys] using h.2))

theorem gFind_gSet_ne (g : Graph) {k q : String} (c : Commit) (h : q ≠ k) :
    gFind (gSet g k c) q = gFind g q := by
  induction g with
  | nil => rfl
  | cons p rest ih =>
    obtain ⟨k2, c2⟩ := p
    simp only [gSet, List.map_cons]
    by_cases hp : k2 = k
    · rw [if_pos (by simpa using hp)]
      simp only [gFind]
      rw [if_neg (Ne.symm h), if_neg (fun hh : k2 = q => h ((hp.symm.trans hh).symm))]
      exact ih
    · rw [if_neg (by simpa using hp)]
      simp only [gFind]
      by_cases hq : k2 = q
      · rw [if_pos hq, if_pos hq]
      · rw [if_neg hq, if_neg hq]
        exact ih

theorem gFind_gSet_self (g : Graph) (k : String) (c : Commit) :
    gFind (gSet g k c) k = (gFind g k).map (fun _ => c) := by
  induction g with
  | nil => rfl
  | cons p rest ih =>
    obtain ⟨k2, c2⟩ := p
    simp only [gSet, List.map_cons]
    by_cases hp : k2 = k
    · rw [if_pos (by simpa using hp)]
      simp [gFind, hp]
    · rw [if_neg (by simpa using hp)]
      simp only [gFind]
      rw [if_neg hp, if_neg hp]
      exact ih

theorem gFind_isSome (g : Graph) (k : String) :
    (gFind g k).isSome = true ↔ k ∈ gKeys g := by
  induction g with
  | nil => simp [gFind, gKeys]
  | cons p rest ih =>
    obtain ⟨k2, c2⟩ := p
    simp only [gFind, gKeys, List.map_cons, List.mem_cons]
    by_cases hp : k2 = k
    · simp [hp]
    · rw [if_neg hp]
      simp only [gKeys] at ih
      rw [ih]
      constructor
      · exact fun hm => Or.inr hm
      · rintro (hm | hm)
        · exact absurd hm.symm hp
        · exact hm

theorem gFind_eq_none {g : Graph} {k : String} :
    gFind g k = none ↔ k ∉ gKeys g := by
  rw [← gFind_isSome]
  cases gFind g k <;> simp

theorem gFind_mem {g : Graph} {k : String} {c : Commit} (h : gFind g k = some c) :
    k ∈ gKeys g := by
  rw [← gFind_isSome, h]; rfl

theorem parentsOf_gSet_ne {g : Graph} {k q : String} (c : Commit) (h : q ≠ k) :
    parentsOf (gSet g k c) q = parentsOf g q := by
  simp [parentsOf, gGet, gFind_gSet_ne g c h]

theorem parentsOf_gSet_self {g : Graph} {k : String} {c : Commit}
    (h : c.parents = (gGet g k).parents) :
    parentsOf (gSet g k c) k = parentsOf g k := by
  simp only [parentsOf, gGet, gFind_gSet_self]
  cases hf : gFind g k with
  | none => simp
  | some c2 => simp only [hf, gGet] at h; simp [h]

theorem childrenOf_gSet_ne {g : Graph} {k q : String} (c : Commit) (h : q ≠ k) :
    childrenOf (gSet g k c) q = childrenOf g q := by
  simp [childrenOf, gGet, gFind_gSet_ne g c h]

theorem childrenOf_gSet_self_of_mem {g : Graph} {k : String} (c : Commit)
    (h : k ∈ gKeys g) :
    childrenOf (gSet g k c) k = c.children := by
  simp only [childrenOf, gGet, gFind_gSet_self]
  cases hf : gFind g k with
  | none => exact absurd (gFind_eq_none.mp hf) (by simp [h])
  | some c2 => simp

theorem gGet_eq_of_find {g : Graph} {k : String} {c : Commit}
    (h : gFind g k = some c) : gGet g k = c := by
  simp [gGet, h]

/-! ## addChild and addChildEdges lemmas -/

theorem addChild_parents (c : Commit) (hash : String) :
    (addChild c hash).parents = c.parents := by
  unfold addChild
  split <;> rfl

theorem addChild_children_super {c : Commit} {hash x : String}
    (h : x ∈ c.children) : x ∈ (addChild c hash).children := by
  unfold addChild
  split
  · exact h
  · exact List.mem_append_left _ h

theorem addChild_children_mem (c : Commit) (hash : String) :
    hash ∈ (addChild c hash).children := by
  unfold addChild
  split
  · next hc => exact List.elem_iff.mp hc
  · exact List.mem_append_right _ (List.mem_singleton.mpr rfl)

theorem addChild_children_sub {c : Commit} {hash x : String}
    (h : x ∈ (addChild c hash).children) : x ∈ c.children ∨ x = hash := by
  unfold addChild at h
  revert h
  split
  · exact fun h => Or.inl h
  · intro h
    rcases List.mem_append.mp h with h2 | h2
    · exact Or.inl h2
    · exact Or.inr (List.mem_singleton.mp h2)

theorem addChild_nodup {c : Commit} {hash : String} (h : c.children.Nodup) :
    (addChild c hash).children.Nodup := by
  unfold addChild
  split
  · exact h
  · next hc =>
    have : hash ∉ c.children := fun hm => hc (List.elem_iff.mpr hm)
    simp only [List.nodup_append, List.nodup_cons, List.nodup_nil]
    exact ⟨h, by simp, by simpa using this⟩

theorem addCE_ok_keys : ∀ (ps : List String) (g g2 : Graph) (hash : String),
    addChildEdges g hash ps = .ok g2 → gKeys g2 = gKeys g := by
  intro ps
  induction ps with
  | nil =>
    intro g g2 hash h
    simp only [addChildEdges] at h
    injection h with h
    rw [← h]
  | cons p rest ih =>
    intro g g2 hash h
    simp only [addChildEdges] at h
    by_cases hc : (gKeys g).contains p = true
    · rw [if_pos hc] at h
      rw [ih _ _ _ h, gKeys_gSet]
    · rw [if_neg hc] at h
      exact absurd h (by simp)

theorem addCE_parentsOf : ∀ (ps : List String) (g g2 : Graph) (hash : String),
    addChildEdges g hash ps = .ok g2 → ∀ q, parentsOf g2 q = parentsOf g q := by
  intro ps
  induction ps with
  | nil =>
    intro g g2 hash h q
    simp only [addChildEdges] at h
    injection h with h
    rw [← h]
  | cons p rest ih =>
    intro g g2 hash h q
    simp only [addChildEdges] at h
    by_cases hc : (gKeys g).contains p = true
    · rw [if_pos hc] at h
      rw [ih _ _ _ h q]
      by_cases hq : q = p
      · subst hq
        exact parentsOf_gSet_self (addChild_parents _ _)
      · exact parentsOf_gSet_ne _ hq
    · rw [if_neg hc] at h
      exact absurd h (by simp)

theorem addCE_ok_mem : ∀ (ps : List String) (g g2 : Graph) (hash : String),
    addChildEdges g hash ps = .ok g2 → ∀ x ∈ ps, x ∈ gKeys g := by
  intro ps
  induction ps with
  | nil => intro g g2 hash h x hx; simp at hx
  | cons p rest ih =>
    intro g g2 hash h x hx
    simp only [addChildEdges] at h
    by_cases hc : (gKeys g).contains p = true
    · rw [if_pos hc] at h
      rcases List.mem_cons.mp hx with rfl | hx2
      · exact List.elem_iff.mp hc
      · have := ih _ _ _ h x hx2
        rwa [gKeys_gSet] at this
    · rw [if_neg hc] at h
      exact absurd h (by simp)

theorem addCE_children_mono : ∀ (ps : List String) (g g2 : Graph) (hash : String),
    addChildEdges g hash ps = .ok g2 →
    ∀ q x, x ∈ childrenOf g q → x ∈ childrenOf g2 q := by
  intro ps
  induction ps with
  | nil =>
    intro g g2 hash h q x hx
    simp only [addChildEdges] at h
    injection h with h
    rwa [← h]
  | cons p rest ih =>
    intro g g2 hash h q x hx
    simp only [addChildEdges] at h
    by_cases hc : (gKeys g).contains p = true
    · rw [if_pos hc] at h
      refine ih _ _ _ h q x ?_
      by_cases hq : q = p
      · subst hq
        rw [childrenOf_gSet_self_of_mem _ (List.elem_iff.mp hc)]
        exact addChild_children_super hx
      · rwa [childrenOf_gSet_ne _ hq]
    · rw [if_neg hc] at h
      exact absurd h (by simp)

theorem addCE_children_sub : ∀ (ps : List String) (g g2 : Graph) (hash : String),
    addChildEdges g hash ps = .ok g2 →
    ∀ q x, x ∈ childrenOf g2 q → x ∈ childrenOf g q ∨ (x = hash ∧ q ∈ ps) := by
  intro ps
  induction ps with
  | nil =>
    intro g g2 hash h q x hx
    simp only [addChildEdges] at h
    injection h with h
    rw [← h] at hx
    exact Or.inl hx
  | cons p rest ih =>
    intro g g2 hash h q x hx
    simp only [addChildEdges] at h
    by_cases hc : (gKeys g).contains p = true
    · rw [if_pos hc] at h
      rcases ih _ _ _ h q x hx with h1 | ⟨rfl, hq⟩
      · by_cases hq : q = p
        · subst hq
          rw [childrenOf_gSet_self_of_mem _ (List.elem_iff.mp hc)] at h1
          rcases addChild_children_sub h1 with h2 | h2
          · exact Or.inl h2
          · exact Or.inr ⟨h2, List.mem_cons_self _ _⟩
        · rw [childrenOf_gSet_ne _ hq] at h1
          exact Or.inl h1
      · exact Or.inr ⟨rfl, List.mem_cons_of_mem _ hq⟩
    · rw [if_neg hc] at h
      exact absurd h (by simp)

theorem addCE_children_mem : ∀ (ps : List String) (g g2 : Graph) (hash : String),
    addChildEdges g hash ps = .ok g2 → ∀ x ∈ ps, hash ∈ childrenOf g2 x := by
  intro ps
  induction ps with
  | nil => intro g g2 hash h x hx; simp at hx
  | cons p rest ih =>
    intro g g2 hash h x hx
    simp only [addChildEdges] at h
    by_cases hc : (gKeys g).contains p = true
    · rw [if_pos hc] at h
      rcases List.mem_cons.mp hx with rfl | hx2
      · refine addCE_children_mono _ _ _ _ h x hash ?_
        rw [childrenOf_gSet_self_of_mem _ (List.elem_iff.mp hc)]
        exact addChild_children_mem _ _
      · exact ih _ _ _ h x hx2
    · rw [if_neg hc] at h
      exact absurd h (by simp)

theorem addCE_children_nodup : ∀ (ps : List String) (g g2 : Graph) (hash : String),
    addChildEdges g hash ps = .ok g2 → (∀ q, (childrenOf g q).Nodup) →
    ∀ q, (childrenOf g2 q).Nodup := by
  intro ps
  induction ps with
  | nil =>
    intro g g2 hash h hnd q
    simp only [addChildEdges] at h
    injection h with h
    rw [← h]; exact hnd q
  | cons p rest ih =>
    intro g g2 hash h hnd q
    simp only [addChildEdges] at h
    by_cases hc : (gKeys g).contains p = true
    · rw [if_pos hc] at h
      refine ih _ _ _ h ?_ q
      intro q2
      by_cases hq : q2 = p
      · subst hq
        rw [childrenOf_gSet_self_of_mem _ (List.elem_iff.mp hc)]
        exact addChild_nodup (hnd q2)
      · rw [childrenOf_gSet_ne _ hq]
        exact hnd q2
    · rw [if_neg hc] at h
      exact absurd h (by simp)

theorem parSum_cons (p : String × Commit) (rest : Graph) :
    parSum (p :: rest) = p.2.parents.length + parSum rest := by
  simp [parSum]

theorem parSum_gSet : ∀ (g : Graph) (k : String) (c : Commit),
    (gKeys g).Nodup → c.parents.length = (gGet g k).parents.length →
    parSum (gSet g k c) = parSum g := by
  intro g
  induction g with
  | nil => intro k c _ _; rfl
  | cons p rest ih =>
    obtain ⟨k2, c2⟩ := p
    intro k c hnd hlen
    have hcons : gKeys ((k2, c2) :: rest) = k2 :: gKeys rest := rfl
    rw [hcons] at hnd
    have hnds := List.nodup_cons.mp hnd
    by_cases hp : k2 = k
    · have hkrest : k ∉ gKeys rest := hp ▸ hnds.1
      have hget : gGet ((k2, c2) :: rest) k = c2 := by simp [gGet, gFind, hp]
      simp only [gSet, List.map_cons]
      rw [if_pos (by simpa using hp)]
      have hrest : (rest.map fun q => if q.1 = k then (k, c) else q) = rest :=
        gSet_not_mem c hkrest
      rw [hrest, parSum_cons, parSum_cons]
      rw [hget] at hlen
      simp [hlen]
    · simp only [gSet, List.map_cons]
      rw [if_neg (by simpa using hp)]
      rw [parSum_cons, parSum_cons]
      have hget : gGet ((k2, c2) :: rest) k = gGet rest k := by simp [gGet, gFind, hp]
      have hih := ih k c hnds.2 (by rwa [hget] at hlen)
      simp only [gSet] at hih
      rw [hih]

theorem addCE_parSum : ∀ (ps : List String) (g g2 : Graph) (hash : String),
    (gKeys g).Nodup → addChildEdges g hash ps = .ok g2 → parSum g2 = parSum g := by
  intro ps
  induction ps with
  | nil =>
    intro g g2 hash _ h
    simp only [addChildEdges] at h
    injection h with h
    rw [← h]
  | cons p rest ih =>
    intro g g2 hash hnd h
    simp only [addChildEdges] at h
    by_cases hc : (gKeys g).contains p = true
    · rw [if_pos hc] at h
      have hnd2 : (gKeys (gSet g p (addChild (gGet g p) hash))).Nodup := by
        rw [gKeys_gSet]; exact hnd
      rw [ih _ _ _ hnd2 h]
      exact parSum_gSet _ _ _ hnd (by rw [addChild_parents])
    · rw [if_neg hc] at h
      exact absurd h (by simp)


/-! ## One-step inversion for the traversal -/

theorem travStep_spec (g : Graph) (v q : List String) (c : Option String) :
    (c = none ∧ q = [] ∧ travStep g v q c = .done (.ok (g, v))) ∨
    (∃ h1 rest, c = none ∧ q = h1 :: rest ∧
      travStep g v q c = .next g v rest (some h1)) ∨
    (c = some "" ∧ travStep g v q c = .next g v q none) ∨
    (∃ hash e, c = some hash ∧ hash ≠ "" ∧
      addChildEdges g hash (parentsOf g hash) = .error e ∧
      travStep g v q c = .done (.error e)) ∨
    (∃ hash g2, c = some hash ∧ hash ≠ "" ∧
      addChildEdges g hash (parentsOf g hash) = .ok g2 ∧ v.contains hash = true ∧
      travStep g v q c = .next g2 v q none) ∨
    (∃ hash g2, c = some hash ∧ hash ≠ "" ∧
      addChildEdges g hash (parentsOf g hash) = .ok g2 ∧ v.contains hash = false ∧
      parentsOf g hash = [] ∧ travStep g v q c = .next g2 (hash :: v) q none) ∨
    (∃ hash g2 p ps, c = some hash ∧ hash ≠ "" ∧
      addChildEdges g hash (parentsOf g hash) = .ok g2 ∧ v.contains hash = false ∧
      parentsOf g hash = p :: ps ∧
      travStep g v q c = .next g2 (hash :: v) (q ++ ps) (some p)) := by
  cases c with
  | none =>
    cases q with
    | nil => exact Or.inl ⟨rfl, rfl, rfl⟩
    | cons h1 rest => exact Or.inr (Or.inl ⟨h1, rest, rfl, rfl, rfl⟩)
  | some hash =>
    by_cases hh : hash = ""
    · subst hh
      exact Or.inr (Or.inr (Or.inl ⟨rfl, by simp [travStep]⟩))
    · cases hA : addChildEdges g hash (parentsOf g hash) with
      | error e =>
        refine Or.inr (Or.inr (Or.inr (Or.inl ⟨hash, e, rfl, hh, hA, ?_⟩)))
        simp only [travStep, if_neg hh]
        rw [hA]
      | ok g2 =>
        cases hv : v.contains hash with
        | true =>
          refine Or.inr (Or.inr (Or.inr (Or.inr (Or.inl ⟨hash, g2, rfl, hh, hA, hv, ?_⟩))))
          simp only [travStep, if_neg hh]
          rw [hA, hv]
        | false =>
          cases hP : parentsOf g hash with
          | nil =>
            refine Or.inr (Or.inr (Or.inr (Or.inr (Or.inr (Or.inl
              ⟨hash, g2, rfl, hh, hA, hv, hP, ?_⟩)))))
            simp only [travStep, if_neg hh]
            rw [hP] at hA
            rw [hP, hA, hv]
          | cons p ps =>
            refine Or.inr (Or.inr (Or.inr (Or.inr (Or.inr (Or.inr
              ⟨hash, g2, p, ps, rfl, hh, hA, hv, hP, ?_⟩)))))
            simp only [travStep, if_neg hh]
            rw [hP] at hA
            rw [hP, hA, hv]

/-! ## The master invariant lemma for the traversal loop -/

theorem travGo_inv (P : Graph → List String → List String → Option String → Prop)
    (Q : Graph → List String → Prop)
    (hstep : ∀ g v q c g2 v2 q2 c2, travStep g v q c = .next g2 v2 q2 c2 →
      P g v q c → P g2 v2 q2 c2)
    (hdone : ∀ g v, P g v [] none → Q g v) :
    ∀ (n : Nat) (g : Graph) (v q : List String) (c : Option String)
      (gf : Graph) (vf : List String),
      travGo n g v q c = some (.ok (gf, vf)) → P g v q c → Q gf vf := by
  intro n
  induction n with
  | zero => intro g v q c gf vf h _; simp [travGo] at h
  | succ k ih =>
    intro g v q c gf vf h hP
    rw [travGo] at h
    cases hs : travStep g v q c with
    | done r =>
      rw [hs] at h
      injection h with h
      subst h
      rcases travStep_spec g v q c with ⟨hc, hq, hts⟩ | ⟨h1, rest, hc, hq, hts⟩ |
        ⟨hc, hts⟩ | ⟨hash, e, hc, hne, hA, hts⟩ | ⟨hash, g2, hc, hne, hA, hv2, hts⟩ |
        ⟨hash, g2, hc, hne, hA, hv2, hP2, hts⟩ |
        ⟨hash, g2, p, ps, hc, hne, hA, hv2, hP2, hts⟩
      · rw [hs] at hts
        injection hts with hts
        injection hts with hts1
        injection hts1 with hg hv
        subst hg; subst hv; subst hc; subst hq
        exact hdone _ _ hP
      · rw [hs] at hts; simp at hts
      · rw [hs] at hts; simp at hts
      · rw [hs] at hts
        injection hts with hts
        simp at hts
      · rw [hs] at hts; simp at hts
      · rw [hs] at hts; simp at hts
      · rw [hs] at hts; simp at hts
    | next g2 v2 q2 c2 =>
      rw [hs] at h
      exact ih _ _ _ _ _ _ h (hstep _ _ _ _ _ _ _ _ hs hP)

/-! ## Termination of the traversal -/

theorem filter_len_mono {α : Type} (l : List α) (p q : α → Bool)
    (h : ∀ x, p x = true → q x = true) :
    (l.filter p).length ≤ (l.filter q).length := by
  induction l with
  | nil => simp
  | cons x rest ih =>
    cases hp : p x with
    | true =>
      rw [List.filter_cons_of_pos hp, List.filter_cons_of_pos (h x hp)]
      simpa using ih
    | false =>
      rw [List.filter_cons_of_neg (by simp [hp])]
      cases hq : q x with
      | true =>
        rw [List.filter_cons_of_pos hq]
        exact le_trans ih (by simp)
      | false =>
        rw [List.filter_cons_of_neg (by simp [hq])]
        exact ih

theorem filter_len_strict {α : Type} (l : List α) (p q : α → Bool)
    (h : ∀ x, p x = true → q x = true) (a : α) (ha : a ∈ l)
    (hpa : p a = false) (hqa : q a = true) :
    (l.filter p).length < (l.filter q).length := by
  induction l with
  | nil => simp at ha
  | cons x rest ih =>
    rcases List.mem_cons.mp ha with rfl | ha2
    · rw [List.filter_cons_of_neg (by simp [hpa]), List.filter_cons_of_pos hqa]
      exact Nat.lt_succ_of_le (filter_len_mono rest p q h)
    · cases hp : p x with
      | true =>
        rw [List.filter_cons_of_pos hp, List.filter_cons_of_pos (h x hp)]
        simpa using ih ha2
      | false =>
        rw [List.filter_cons_of_neg (by simp [hp])]
        cases hq : q x with
        | true =>
          rw [List.filter_cons_of_pos hq]
          exact Nat.lt_succ_of_le (le_of_lt (ih ha2))
        | false =>
          rw [List.filter_cons_of_neg (by simp [hq])]
          exact ih ha2

theorem unvisited_congr {g g2 : Graph} (v : List String)
    (h : gKeys g2 = gKeys g) : unvisited g2 v = unvisited g v := by
  simp [unvisited, h]

theorem contains_tail_imp {v : List String} {h1 x : String}
    (hx : (!(h1 :: v).contains x) = true) : (!v.contains x) = true := by
  cases hcv : v.contains x with
  | false => simp
  | true =>
    have hmem : x ∈ h1 :: v := List.mem_cons_of_mem _ (List.elem_iff.mp hcv)
    have hcc : (h1 :: v).contains x = true := List.elem_iff.mpr hmem
    rw [hcc] at hx
    simp at hx

theorem unvisited_cons_le (g : Graph) (v : List String) (h1 : String) :
    unvisited g (h1 :: v) ≤ unvisited g v :=
  filter_len_mono _ _ _ (fun _ hx => contains_tail_imp hx)

theorem unvisited_cons_lt {g : Graph} {v : List String} {h1 : String}
    (hmem : h1 ∈ gKeys g) (hnv : h1 ∉ v) :
    unvisited g (h1 :: v) < unvisited g v := by
  apply filter_len_strict _ _ _ (fun _ hx => contains_tail_imp hx) h1 hmem
  · have hcc : (h1 :: v).contains h1 = true :=
      List.elem_iff.mpr (List.mem_cons_self h1 v)
    rw [hcc]
    rfl
  · cases hcv : v.contains h1 with
    | false => simp
    | true => exact absurd (List.elem_iff.mp hcv) hnv

theorem parents_le_parSum : ∀ (g : Graph) (k : String) (c : Commit),
    gFind g k = some c → c.parents.length ≤ parSum g := by
  intro g
  induction g with
  | nil => intro k c h; simp [gFind] at h
  | cons p rest ih =>
    obtain ⟨k2, c2⟩ := p
    intro k c h
    rw [parSum_cons]
    simp only [gFind] at h
    by_cases hk : k2 = k
    · rw [if_pos hk] at h
      injection h with h
      subst h
      exact Nat.le_add_right _ _
    · rw [if_neg hk] at h
      exact le_trans (ih k c h) (Nat.le_add_left _ _)

theorem travStep_next_measure {g : Graph} {v q : List String} {c : Option String}
    {g2 : Graph} {v2 q2 : List String} {c2 : Option String}
    (hnd : (gKeys g).Nodup)
    (hs : travStep g v q c = .next g2 v2 q2 c2) :
    (gKeys g2).Nodup ∧ travMeasure g2 v2 q2 c2 < travMeasure g v q c := by
  rcases travStep_spec g v q c with ⟨hc, hq, hts⟩ | ⟨h1, rest, hc, hq, hts⟩ |
    ⟨hc, hts⟩ | ⟨hash, e, hc, hne, hA, hts⟩ | ⟨hash, gA, hc, hne, hA, hv2, hts⟩ |
    ⟨hash, gA, hc, hne, hA, hv2, hP2, hts⟩ |
    ⟨hash, gA, p, ps, hc, hne, hA, hv2, hP2, hts⟩
  · rw [hs] at hts; simp at hts
  · rw [hs] at hts
    injection hts with e1 e2 e3 e4
    subst e1; subst e2; subst e3; subst e4; subst hq; subst hc
    refine ⟨hnd, ?_⟩
    simp only [travMeasure, curWeight, List.length_cons]
    omega
  · rw [hs] at hts
    injection hts with e1 e2 e3 e4
    subst e1; subst e2; subst e3; subst e4; subst hc
    refine ⟨hnd, ?_⟩
    simp only [travMeasure, curWeight]
    omega
  · rw [hs] at hts; simp at hts
  · rw [hs] at hts
    injection hts with e1 e2 e3 e4
    subst e1; subst e2; subst e3; subst e4; subst hc
    have hkeys := addCE_ok_keys _ _ _ _ hA
    refine ⟨hkeys ▸ hnd, ?_⟩
    simp only [travMeasure, curWeight, unvisited_congr _ hkeys,
      addCE_parSum _ _ _ _ hnd hA]
    omega
  · rw [hs] at hts
    injection hts with e1 e2 e3 e4
    subst e1; subst e2; subst e3; subst e4; subst hc
    have hkeys := addCE_ok_keys _ _ _ _ hA
    refine ⟨hkeys ▸ hnd, ?_⟩
    simp only [travMeasure, curWeight, unvisited_congr _ hkeys,
      addCE_parSum _ _ _ _ hnd hA]
    have hle : unvisited g (hash :: v) ≤ unvisited g v := unvisited_cons_le g v hash
    have h2 : 2 * (parSum g + 2) * unvisited g (hash :: v) ≤
        2 * (parSum g + 2) * unvisited g v := Nat.mul_le_mul_left _ hle
    omega
  · rw [hs] at hts
    injection hts with e1 e2 e3 e4
    subst e1; subst e2; subst e3; subst e4; subst hc
    have hkeys := addCE_ok_keys _ _ _ _ hA
    refine ⟨hkeys ▸ hnd, ?_⟩
    have hfind : ∃ cc, gFind g hash = some cc := by
      cases hf : gFind g hash with
      | none =>
        exfalso
        have : parentsOf g hash = [] := by simp [parentsOf, gGet, hf, zeroCommit]
        rw [hP2] at this
        exact List.cons_ne_nil _ _ this
      | some cc => exact ⟨cc, rfl⟩
    obtain ⟨cc, hf⟩ := hfind
    have hmem : hash ∈ gKeys g := gFind_mem hf
    have hnv : hash ∉ v := by
      intro hm
      have hcc : v.contains hash = true := List.elem_iff.mpr hm
      rw [hv2] at hcc
      cases hcc
    have hlt : unvisited g (hash :: v) < unvisited g v := unvisited_cons_lt hmem hnv
    have hps : ps.length ≤ parSum g := by
      have hcc : cc.parents = p :: ps := by
        have : parentsOf g hash = cc.parents := by simp [parentsOf, gGet, hf]
        rw [← this, hP2]
      have := parents_le_parSum g hash cc hf
      rw [hcc] at this
      simp only [List.length_cons] at this
      omega
    simp only [travMeasure, curWeight, unvisited_congr _ hkeys,
      addCE_parSum _ _ _ _ hnd hA]
    have h2 : 2 * (parSum g + 2) * (unvisited g (hash :: v) + 1) ≤
        2 * (parSum g + 2) * unvisited g v := Nat.mul_le_mul_left _ hlt
    rw [Nat.mul_add, Nat.mul_one] at h2
    simp only [List.length_append]
    omega

theorem travGo_term : ∀ (m : Nat) (g : Graph) (v q : List String)
    (c : Option String), (gKeys g).Nodup → travMeasure g v q c ≤ m →
    ∃ r, travGo (m + 1) g v q c = some r := by
  intro m
  induction m with
  | zero =>
    intro g v q c hnd hm
    cases hs : travStep g v q c with
    | done r => exact ⟨r, by rw [travGo, hs]⟩
    | next g2 v2 q2 c2 =>
      have := (travStep_next_measure hnd hs).2
      omega
  | succ k ih =>
    intro g v q c hnd hm
    cases hs : travStep g v q c with
    | done r => exact ⟨r, by rw [travGo, hs]⟩
    | next g2 v2 q2 c2 =>
      obtain ⟨hnd2, hlt⟩ := travStep_next_measure hnd hs
      obtain ⟨r, hr⟩ := ih g2 v2 q2 c2 hnd2 (by omega)
      exact ⟨r, by rw [travGo, hs]; exact hr⟩

/-! ## Step inversion for continuing transitions -/

theorem travStep_next_spec {g : Graph} {v q : List String} {c : Option String}
    {g2 : Graph} {v2 q2 : List String} {c2 : Option String}
    (hs : travStep g v q c = .next g2 v2 q2 c2) :
    (∃ h1 rest, c = none ∧ q = h1 :: rest ∧ g2 = g ∧ v2 = v ∧ q2 = rest ∧
      c2 = some h1) ∨
    (c = some "" ∧ g2 = g ∧ v2 = v ∧ q2 = q ∧ c2 = none) ∨
    (∃ hash, c = some hash ∧ hash ≠ "" ∧
      addChildEdges g hash (parentsOf g hash) = .ok g2 ∧
      v.contains hash = true ∧ v2 = v ∧ q2 = q ∧ c2 = none) ∨
    (∃ hash, c = some hash ∧ hash ≠ "" ∧
      addChildEdges g hash (parentsOf g hash) = .ok g2 ∧
      v.contains hash = false ∧ parentsOf g hash = [] ∧ v2 = hash :: v ∧
      q2 = q ∧ c2 = none) ∨
    (∃ hash p ps, c = some hash ∧ hash ≠ "" ∧
      addChildEdges g hash (parentsOf g hash) = .ok g2 ∧
      v.contains hash = false ∧ parentsOf g hash = p :: ps ∧ v2 = hash :: v ∧
      q2 = q ++ ps ∧ c2 = some p) := by
  rcases travStep_spec g v q c with ⟨hc, hq, hts⟩ | ⟨h1, rest, hc, hq, hts⟩ |
    ⟨hc, hts⟩ | ⟨hash, e, hc, hne, hA, hts⟩ | ⟨hash, gA, hc, hne, hA, hcv, hts⟩ |
    ⟨hash, gA, hc, hne, hA, hcv, hP2, hts⟩ |
    ⟨hash, gA, p, ps, hc, hne, hA, hcv, hP2, hts⟩
  · rw [hs] at hts; simp at hts
  · rw [hs] at hts
    injection hts with e1 e2 e3 e4
    exact Or.inl ⟨h1, rest, hc, hq, e1, e2, e3, e4⟩
  · rw [hs] at hts
    injection hts with e1 e2 e3 e4
    exact Or.inr (Or.inl ⟨hc, e1, e2, e3, e4⟩)
  · rw [hs] at hts; simp at hts
  · rw [hs] at hts
    injection hts with e1 e2 e3 e4
    refine Or.inr (Or.inr (Or.inl ⟨hash, hc, hne, ?_, hcv, e2, e3, e4⟩))
    rw [e1]; exact hA
  · rw [hs] at hts
    injection hts with e1 e2 e3 e4
    refine Or.inr (Or.inr (Or.inr (Or.inl
      ⟨hash, hc, hne, ?_, hcv, hP2, e2, e3, e4⟩)))
    rw [e1]; exact hA
  · rw [hs] at hts
    injection hts with e1 e2 e3 e4
    refine Or.inr (Or.inr (Or.inr (Or.inr
      ⟨hash, p, ps, hc, hne, ?_, hcv, hP2, e2, e3, e4⟩)))
    rw [e1]; exact hA

theorem contains_eq_false_iff {v : List String} {x : String} :
    v.contains x = false ↔ x ∉ v := by
  constructor
  · intro h hm
    have hcc : v.contains x = true := List.elem_iff.mpr hm
    rw [hcc] at h
    cases h
  · intro hm
    cases hc : v.contains x with
    | false => rfl
    | true => exact absurd (List.elem_iff.mp hc) hm

/-! ## Invariant instantiations for the traversal -/

theorem travGo_keys_parents {n : Nat} {g : Graph} {v q : List String}
    {c : Option String} {gf : Graph} {vf : List String}
    (h : travGo n g v q c = some (.ok (gf, vf))) :
    gKeys gf = gKeys g ∧ ∀ k, parentsOf gf k = parentsOf g k := by
  refine travGo_inv
    (fun g1 _ _ _ => gKeys g1 = gKeys g ∧ ∀ k, parentsOf g1 k = parentsOf g k)
    (fun gf1 _ => gKeys gf1 = gKeys g ∧ ∀ k, parentsOf gf1 k = parentsOf g k)
    ?_ (fun _ _ hP => hP) n g v q c gf vf h ⟨rfl, fun _ => rfl⟩
  intro g1 v1 q1 c1 g2 v2 q2 c2 hs hP
  rcases travStep_next_spec hs with
    ⟨h1, rest, hc, hq, hg, hv, hq2, hc2⟩ | ⟨hc, hg, hv, hq2, hc2⟩ |
    ⟨hash, hc, hne, hA, hcv, hv, hq2, hc2⟩ |
    ⟨hash, hc, hne, hA, hcv, hP2, hv, hq2, hc2⟩ |
    ⟨hash, p, ps, hc, hne, hA, hcv, hP2, hv, hq2, hc2⟩
  · subst hg; exact hP
  · subst hg; exact hP
  · exact ⟨(addCE_ok_keys _ _ _ _ hA).trans hP.1,
      fun k => (addCE_parentsOf _ _ _ _ hA k).trans (hP.2 k)⟩
  · exact ⟨(addCE_ok_keys _ _ _ _ hA).trans hP.1,
      fun k => (addCE_parentsOf _ _ _ _ hA k).trans (hP.2 k)⟩
  · exact ⟨(addCE_ok_keys _ _ _ _ hA).trans hP.1,
      fun k => (addCE_parentsOf _ _ _ _ hA k).trans (hP.2 k)⟩

theorem travGo_visited_nodup {n : Nat} {g : Graph} {v q : List String}
    {c : Option String} {gf : Graph} {vf : List String}
    (h : travGo n g v q c = some (.ok (gf, vf))) (hnd : v.Nodup) : vf.Nodup := by
  refine travGo_inv (fun _ v1 _ _ => v1.Nodup) (fun _ vf1 => vf1.Nodup)
    ?_ (fun _ _ hP => hP) n g v q c gf vf h hnd
  intro g1 v1 q1 c1 g2 v2 q2 c2 hs hP
  rcases travStep_next_spec hs with
    ⟨h1, rest, hc, hq, hg, hv, hq2, hc2⟩ | ⟨hc, hg, hv, hq2, hc2⟩ |
    ⟨hash, hc, hne, hA, hcv, hv, hq2, hc2⟩ |
    ⟨hash, hc, hne, hA, hcv, hP2, hv, hq2, hc2⟩ |
    ⟨hash, p, ps, hc, hne, hA, hcv, hP2, hv, hq2, hc2⟩
  · subst hv; exact hP
  · subst hv; exact hP
  · subst hv; exact hP
  · subst hv; exact List.nodup_cons.mpr ⟨contains_eq_false_iff.mp hcv, hP⟩
  · subst hv; exact List.nodup_cons.mpr ⟨contains_eq_false_iff.mp hcv, hP⟩

theorem travGo_children_nodup {n : Nat} {g : Graph} {v q : List String}
    {c : Option String} {gf : Graph} {vf : List String}
    (h : travGo n g v q c = some (.ok (gf, vf)))
    (hnd : ∀ p2, (childrenOf g p2).Nodup) : ∀ p2, (childrenOf gf p2).Nodup := by
  refine travGo_inv (fun g1 _ _ _ => ∀ p2, (childrenOf g1 p2).Nodup)
    (fun gf1 _ => ∀ p2, (childrenOf gf1 p2).Nodup)
    ?_ (fun _ _ hP => hP) n g v q c gf vf h hnd
  intro g1 v1 q1 c1 g2 v2 q2 c2 hs hP
  rcases travStep_next_spec hs with
    ⟨h1, rest, hc, hq, hg, hv, hq2, hc2⟩ | ⟨hc, hg, hv, hq2, hc2⟩ |
    ⟨hash, hc, hne, hA, hcv, hv, hq2, hc2⟩ |
    ⟨hash, hc, hne, hA, hcv, hP2, hv, hq2, hc2⟩ |
    ⟨hash, p, ps, hc, hne, hA, hcv, hP2, hv, hq2, hc2⟩
  · subst hg; exact hP
  · subst hg; exact hP
  · exact addCE_children_nodup _ _ _ _ hA hP
  · exact addCE_children_nodup _ _ _ _ hA hP
  · exact addCE_children_nodup _ _ _ _ hA hP

theorem travGo_children_mono {n : Nat} {g : Graph} {v q : List String}
    {c : Option String} {gf : Graph} {vf : List String}
    (h : travGo n g v q c = some (.ok (gf, vf))) :
    ∀ p2 x, x ∈ childrenOf g p2 → x ∈ childrenOf gf p2 := by
  refine travGo_inv
    (fun g1 _ _ _ => ∀ p2 x, x ∈ childrenOf g p2 → x ∈ childrenOf g1 p2)
    (fun gf1 _ => ∀ p2 x, x ∈ childrenOf g p2 → x ∈ childrenOf gf1 p2)
    ?_ (fun _ _ hP => hP) n g v q c gf vf h (fun _ _ hx => hx)
  intro g1 v1 q1 c1 g2 v2 q2 c2 hs hP
  rcases travStep_next_spec hs with
    ⟨h1, rest, hc, hq, hg, hv, hq2, hc2⟩ | ⟨hc, hg, hv, hq2, hc2⟩ |
    ⟨hash, hc, hne, hA, hcv, hv, hq2, hc2⟩ |
    ⟨hash, hc, hne, hA, hcv, hP2, hv, hq2, hc2⟩ |
    ⟨hash, p, ps, hc, hne, hA, hcv, hP2, hv, hq2, hc2⟩
  · subst hg; exact hP
  · subst hg; exact hP
  · exact fun p2 x hx => addCE_children_mono _ _ _ _ hA p2 x (hP p2 x hx)
  · exact fun p2 x hx => addCE_children_mono _ _ _ _ hA p2 x (hP p2 x hx)
  · exact fun p2 x hx => addCE_children_mono _ _ _ _ hA p2 x (hP p2 x hx)

theorem travGo_absorb {n : Nat} {g : Graph} {v q : List String}
    {c : Option String} {gf : Graph} {vf : List String}
    (h : travGo n g v q c = some (.ok (gf, vf))) (x0 : String)
    (hx : x0 ∈ v ∨ (x0 ∈ q ∧ x0 ≠ "") ∨ (c = some x0 ∧ x0 ≠ "")) : x0 ∈ vf := by
  refine travGo_inv
    (fun _ v1 q1 c1 => x0 ∈ v1 ∨ (x0 ∈ q1 ∧ x0 ≠ "") ∨ (c1 = some x0 ∧ x0 ≠ ""))
    (fun _ vf1 => x0 ∈ vf1) ?_ ?_ n g v q c gf vf h hx
  · intro g1 v1 q1 c1 g2 v2 q2 c2 hs hP
    rcases travStep_next_spec hs with
      ⟨h1, rest, hc, hq, hg, hv, hq2, hc2⟩ | ⟨hc, hg, hv, hq2, hc2⟩ |
      ⟨hash, hc, hne, hA, hcv, hv, hq2, hc2⟩ |
      ⟨hash, hc, hne, hA, hcv, hP2, hv, hq2, hc2⟩ |
      ⟨hash, p, ps, hc, hne, hA, hcv, hP2, hv, hq2, hc2⟩
    · subst hv; subst hq2; subst hc2; subst hq; subst hc
      rcases hP with h1m | ⟨h1m, hne0⟩ | ⟨h1m, hne0⟩
      · exact Or.inl h1m
      · rcases List.mem_cons.mp h1m with rfl | h2m
        · exact Or.inr (Or.inr ⟨rfl, hne0⟩)
        · exact Or.inr (Or.inl ⟨h2m, hne0⟩)
      · cases h1m
    · subst hv; subst hq2; subst hc2; subst hc
      rcases hP with h1m | ⟨h1m, hne0⟩ | ⟨h1m, hne0⟩
      · exact Or.inl h1m
      · exact Or.inr (Or.inl ⟨h1m, hne0⟩)
      · injection h1m with h1m
        exact absurd h1m.symm hne0
    · subst hv; subst hq2; subst hc2; subst hc
      rcases hP with h1m | ⟨h1m, hne0⟩ | ⟨h1m, hne0⟩
      · exact Or.inl h1m
      · exact Or.inr (Or.inl ⟨h1m, hne0⟩)
      · injection h1m with h1m
        subst h1m
        exact Or.inl (List.elem_iff.mp hcv)
    · subst hv; subst hq2; subst hc2; subst hc
      rcases hP with h1m | ⟨h1m, hne0⟩ | ⟨h1m, hne0⟩
      · exact Or.inl (List.mem_cons_of_mem _ h1m)
      · exact Or.inr (Or.inl ⟨h1m, hne0⟩)
      · injection h1m with h1m
        subst h1m
        exact Or.inl (List.mem_cons_self _ _)
    · subst hv; subst hq2; subst hc2; subst hc
      rcases hP with h1m | ⟨h1m, hne0⟩ | ⟨h1m, hne0⟩
      · exact Or.inl (List.mem_cons_of_mem _ h1m)
      · exact Or.inr (Or.inl ⟨List.mem_append_left _ h1m, hne0⟩)
      · injection h1m with h1m
        subst h1m
        exact Or.inl (List.mem_cons_self _ _)
  · intro g1 v1 hP
    rcases hP with h1m | ⟨h1m, _⟩ | ⟨h1m, _⟩
    · exact h1m
    · cases h1m
    · cases h1m

theorem travGo_visited_closed {n : Nat} {g : Graph} {v q : List String}
    {c : Option String} {gf : Graph} {vf : List String}
    (h : travGo n g v q c = some (.ok (gf, vf)))
    (hc0 : ∀ x ∈ v, ∀ p2 ∈ parentsOf g x, p2 ≠ "" →
      p2 ∈ v ∨ p2 ∈ q ∨ c = some p2) :
    ∀ x ∈ vf, ∀ p2 ∈ parentsOf g x, p2 ≠ "" → p2 ∈ vf := by
  refine travGo_inv
    (fun g1 v1 q1 c1 => (∀ k, parentsOf g1 k = parentsOf g k) ∧
      ∀ x ∈ v1, ∀ p2 ∈ parentsOf g x, p2 ≠ "" → p2 ∈ v1 ∨ p2 ∈ q1 ∨ c1 = some p2)
    (fun _ vf1 => ∀ x ∈ vf1, ∀ p2 ∈ parentsOf g x, p2 ≠ "" → p2 ∈ vf1)
    ?_ ?_ n g v q c gf vf h ⟨fun _ => rfl, hc0⟩
  · intro g1 v1 q1 c1 g2 v2 q2 c2 hs hP
    rcases travStep_next_spec hs with
      ⟨h1, rest, hc, hq, hg, hv, hq2, hc2⟩ | ⟨hc, hg, hv, hq2, hc2⟩ |
      ⟨hash, hc, hne, hA, hcv, hv, hq2, hc2⟩ |
      ⟨hash, hc, hne, hA, hcv, hP2, hv, hq2, hc2⟩ |
      ⟨hash, p, ps, hc, hne, hA, hcv, hP2, hv, hq2, hc2⟩
    · subst hg; subst hv; subst hq2; subst hc2; subst hq; subst hc
      refine ⟨hP.1, fun x hx p2 hp2 hne0 => ?_⟩
      rcases hP.2 x hx p2 hp2 hne0 with hm | hm | hm
      · exact Or.inl hm
      · rcases List.mem_cons.mp hm with rfl | hm2
        · exact Or.inr (Or.inr rfl)
        · exact Or.inr (Or.inl hm2)
      · cases hm
    · subst hg; subst hv; subst hq2; subst hc2; subst hc
      refine ⟨hP.1, fun x hx p2 hp2 hne0 => ?_⟩
      rcases hP.2 x hx p2 hp2 hne0 with hm | hm | hm
      · exact Or.inl hm
      · exact Or.inr (Or.inl hm)
      · injection hm with hm
        exact absurd hm.symm hne0
    · subst hv; subst hq2; subst hc2; subst hc
      refine ⟨fun k => (addCE_parentsOf _ _ _ _ hA k).trans (hP.1 k),
        fun x hx p2 hp2 hne0 => ?_⟩
      rcases hP.2 x hx p2 hp2 hne0 with hm | hm | hm
      · exact Or.inl hm
      · exact Or.inr (Or.inl hm)
      · injection hm with hm
        subst hm
        exact Or.inl (List.elem_iff.mp hcv)
    · subst hv; subst hq2; subst hc2; subst hc
      refine ⟨fun k => (addCE_parentsOf _ _ _ _ hA k).trans (hP.1 k),
        fun x hx p2 hp2 hne0 => ?_⟩
      rcases List.mem_cons.mp hx with rfl | hx2
      · exfalso
        have hpg : parentsOf g x = [] := by rw [← hP.1 x]; exact hP2
        rw [hpg] at hp2
        cases hp2
      · rcases hP.2 x hx2 p2 hp2 hne0 with hm | hm | hm
        · exact Or.inl (List.mem_cons_of_mem _ hm)
        · exact Or.inr (Or.inl hm)
        · injection hm with hm
          subst hm
          exact Or.inl (List.mem_cons_self _ _)
    · subst hv; subst hq2; subst hc2; subst hc
      refine ⟨fun k => (addCE_parentsOf _ _ _ _ hA k).trans (hP.1 k),
        fun x hx p2 hp2 hne0 => ?_⟩
      rcases List.mem_cons.mp hx with rfl | hx2
      · have hpg : parentsOf g x = p :: ps := by rw [← hP.1 x]; exact hP2
        rw [hpg] at hp2
        rcases List.mem_cons.mp hp2 with rfl | hp3
        · exact Or.inr (Or.inr rfl)
        · exact Or.inr (Or.inl (List.mem_append_right _ hp3))
      · rcases hP.2 x hx2 p2 hp2 hne0 with hm | hm | hm
        · exact Or.inl (List.mem_cons_of_mem _ hm)
        · exact Or.inr (Or.inl (List.mem_append_left _ hm))
        · injection hm with hm
          subst hm
          exact Or.inl (List.mem_cons_self _ _)
  · intro g1 v1 hP x hx p2 hp2 hne0
    rcases hP.2 x hx p2 hp2 hne0 with hm | hm | hm
    · exact hm
    · cases hm
    · cases hm

theorem travGo_visited_sound {n : Nat} {g : Graph} {v q : List String}
    {c : Option String} {gf : Graph} {vf : List String}
    (h : travGo n g v q c = some (.ok (gf, vf)))
    (R : String → Prop)
    (hRclosed : ∀ h2 p2, R h2 → p2 ∈ parentsOf g h2 → p2 ≠ "" → R p2)
    (hv0 : ∀ x ∈ v, R x) (hq0 : ∀ x ∈ q, x ≠ "" → R x)
    (hc0 : ∀ x, c = some x → x ≠ "" → R x) :
    ∀ x ∈ vf, R x := by
  refine travGo_inv
    (fun g1 v1 q1 c1 => (∀ k, parentsOf g1 k = parentsOf g k) ∧
      (∀ x ∈ v1, R x) ∧ (∀ x ∈ q1, x ≠ "" → R x) ∧
      (∀ x, c1 = some x → x ≠ "" → R x))
    (fun _ vf1 => ∀ x ∈ vf1, R x)
    ?_ (fun _ _ hP => hP.2.1) n g v q c gf vf h ⟨fun _ => rfl, hv0, hq0, hc0⟩
  intro g1 v1 q1 c1 g2 v2 q2 c2 hs hP
  obtain ⟨hpres, hPv, hPq, hPc⟩ := hP
  rcases travStep_next_spec hs with
    ⟨h1, rest, hc, hq, hg, hv, hq2, hc2⟩ | ⟨hc, hg, hv, hq2, hc2⟩ |
    ⟨hash, hc, hne, hA, hcv, hv, hq2, hc2⟩ |
    ⟨hash, hc, hne, hA, hcv, hP2, hv, hq2, hc2⟩ |
    ⟨hash, p, ps, hc, hne, hA, hcv, hP2, hv, hq2, hc2⟩
  · subst hg; subst hv; subst hq2; subst hc2; subst hq
    refine ⟨hpres, hPv, fun x hx hne0 => hPq x (List.mem_cons_of_mem _ hx) hne0,
      fun x hx hne0 => ?_⟩
    injection hx with hx
    subst hx
    exact hPq h1 (List.mem_cons_self _ _) hne0
  · subst hg; subst hv; subst hq2; subst hc2
    exact ⟨hpres, hPv, hPq, fun x hx => by cases hx⟩
  · subst hv; subst hq2; subst hc2; subst hc
    exact ⟨fun k => (addCE_parentsOf _ _ _ _ hA k).trans (hpres k), hPv, hPq,
      fun x hx => by cases hx⟩
  · subst hv; subst hq2; subst hc2; subst hc
    refine ⟨fun k => (addCE_parentsOf _ _ _ _ hA k).trans (hpres k),
      fun x hx => ?_, hPq, fun x hx => by cases hx⟩
    rcases List.mem_cons.mp hx with rfl | hx2
    · exact hPc x rfl hne
    · exact hPv x hx2
  · subst hv; subst hq2; subst hc2; subst hc
    have hRhash : R hash := hPc hash rfl hne
    have hpg : parentsOf g hash = p :: ps := by rw [← hpres hash]; exact hP2
    refine ⟨fun k => (addCE_parentsOf _ _ _ _ hA k).trans (hpres k),
      fun x hx => ?_, fun x hx hne0 => ?_, fun x hx hne0 => ?_⟩
    · rcases List.mem_cons.mp hx with rfl | hx2
      · exact hRhash
      · exact hPv x hx2
    · rcases List.mem_append.mp hx with hx2 | hx2
      · exact hPq x hx2 hne0
      · exact hRclosed hash x hRhash (by rw [hpg]; exact List.mem_cons_of_mem _ hx2) hne0
    · injection hx with hx
      subst hx
      exact hRclosed hash p hRhash (by rw [hpg]; exact List.mem_cons_self _ _) hne0

theorem travGo_children_sound {n : Nat} {g : Graph} {v q : List String}
    {c : Option String} {gf : Graph} {vf : List String}
    (h : travGo n g v q c = some (.ok (gf, vf))) :
    ∀ p2 x, x ∈ childrenOf gf p2 →
      x ∈ childrenOf g p2 ∨ (p2 ∈ parentsOf g x ∧ x ∈ vf) := by
  refine travGo_inv
    (fun g1 v1 _ _ => (∀ k, parentsOf g1 k = parentsOf g k) ∧
      ∀ p2 x, x ∈ childrenOf g1 p2 →
        x ∈ childrenOf g p2 ∨ (p2 ∈ parentsOf g x ∧ x ∈ v1))
    (fun gf1 vf1 => ∀ p2 x, x ∈ childrenOf gf1 p2 →
      x ∈ childrenOf g p2 ∨ (p2 ∈ parentsOf g x ∧ x ∈ vf1))
    ?_ (fun _ _ hP => hP.2) n g v q c gf vf h
    ⟨fun _ => rfl, fun p2 x hx => Or.inl hx⟩
  intro g1 v1 q1 c1 g2 v2 q2 c2 hs hP
  obtain ⟨hpres, hPch⟩ := hP
  rcases travStep_next_spec hs with
    ⟨h1, rest, hc, hq, hg, hv, hq2, hc2⟩ | ⟨hc, hg, hv, hq2, hc2⟩ |
    ⟨hash, hc, hne, hA, hcv, hv, hq2, hc2⟩ |
    ⟨hash, hc, hne, hA, hcv, hP2, hv, hq2, hc2⟩ |
    ⟨hash, p, ps, hc, hne, hA, hcv, hP2, hv, hq2, hc2⟩
  · subst hg; subst hv; exact ⟨hpres, hPch⟩
  · subst hg; subst hv; exact ⟨hpres, hPch⟩
  · subst hv
    refine ⟨fun k => (addCE_parentsOf _ _ _ _ hA k).trans (hpres k),
      fun p2 x hx => ?_⟩
    rcases addCE_children_sub _ _ _ _ hA p2 x hx with h1 | ⟨hxh, hp2⟩
    · exact hPch p2 x h1
    · subst hxh
      refine Or.inr ⟨?_, List.elem_iff.mp hcv⟩
      rw [← hpres x]
      exact hp2
  · subst hv
    refine ⟨fun k => (addCE_parentsOf _ _ _ _ hA k).trans (hpres k),
      fun p2 x hx => ?_⟩
    rcases addCE_children_sub _ _ _ _ hA p2 x hx with h1 | ⟨hxh, hp2⟩
    · rcases hPch p2 x h1 with h2 | ⟨h2, h3⟩
      · exact Or.inl h2
      · exact Or.inr ⟨h2, List.mem_cons_of_mem _ h3⟩
    · subst hxh
      refine Or.inr ⟨?_, List.mem_cons_self _ _⟩
      rw [← hpres x]
      exact hp2
  · subst hv
    refine ⟨fun k => (addCE_parentsOf _ _ _ _ hA k).trans (hpres k),
      fun p2 x hx => ?_⟩
    rcases addCE_children_sub _ _ _ _ hA p2 x hx with h1 | ⟨hxh, hp2⟩
    · rcases hPch p2 x h1 with h2 | ⟨h2, h3⟩
      · exact Or.inl h2
      · exact Or.inr ⟨h2, List.mem_cons_of_mem _ h3⟩
    · subst hxh
      refine Or.inr ⟨?_, List.mem_cons_self _ _⟩
      rw [← hpres x]
      exact hp2

theorem travGo_children_complete {n : Nat} {g : Graph} {v q : List String}
    {c : Option String} {gf : Graph} {vf : List String}
    (h : travGo n g v q c = some (.ok (gf, vf)))
    (hc0 : ∀ x ∈ v, ∀ p2 ∈ parentsOf g x, x ∈ childrenOf g p2) :
    ∀ x ∈ vf, ∀ p2 ∈ parentsOf g x, x ∈ childrenOf gf p2 := by
  refine travGo_inv
    (fun g1 v1 _ _ => (∀ k, parentsOf g1 k = parentsOf g k) ∧
      ∀ x ∈ v1, ∀ p2 ∈ parentsOf g x, x ∈ childrenOf g1 p2)
    (fun gf1 vf1 => ∀ x ∈ vf1, ∀ p2 ∈ parentsOf g x, x ∈ childrenOf gf1 p2)
    ?_ (fun _ _ hP => hP.2) n g v q c gf vf h ⟨fun _ => rfl, hc0⟩
  intro g1 v1 q1 c1 g2 v2 q2 c2 hs hP
  obtain ⟨hpres, hPch⟩ := hP
  rcases travStep_next_spec hs with
    ⟨h1, rest, hc, hq, hg, hv, hq2, hc2⟩ | ⟨hc, hg, hv, hq2, hc2⟩ |
    ⟨hash, hc, hne, hA, hcv, hv, hq2, hc2⟩ |
    ⟨hash, hc, hne, hA, hcv, hP2, hv, hq2, hc2⟩ |
    ⟨hash, p, ps, hc, hne, hA, hcv, hP2, hv, hq2, hc2⟩
  · subst hg; subst hv; exact ⟨hpres, hPch⟩
  · subst hg; subst hv; exact ⟨hpres, hPch⟩
  · subst hv
    exact ⟨fun k => (addCE_parentsOf _ _ _ _ hA k).trans (hpres k),
      fun x hx p2 hp2 => addCE_children_mono _ _ _ _ hA p2 x (hPch x hx p2 hp2)⟩
  · subst hv
    refine ⟨fun k => (addCE_parentsOf _ _ _ _ hA k).trans (hpres k),
      fun x hx p2 hp2 => ?_⟩
    rcases List.mem_cons.mp hx with rfl | hx2
    · refine addCE_children_mem _ _ _ _ hA p2 ?_
      rw [hpres x]
      exact hp2
    · exact addCE_children_mono _ _ _ _ hA p2 x (hPch x hx2 p2 hp2)
  · subst hv
    refine ⟨fun k => (addCE_parentsOf _ _ _ _ hA k).trans (hpres k),
      fun x hx p2 hp2 => ?_⟩
    rcases List.mem_cons.mp hx with rfl | hx2
    · refine addCE_children_mem _ _ _ _ hA p2 ?_
      rw [hpres x]
      exact hp2
    · exact addCE_children_mono _ _ _ _ hA p2 x (hPch x hx2 p2 hp2)

theorem travGo_parents_in_keys {n : Nat} {g : Graph} {v q : List String}
    {c : Option String} {gf : Graph} {vf : List String}
    (h : travGo n g v q c = some (.ok (gf, vf)))
    (hc0 : ∀ x ∈ v, ∀ p2 ∈ parentsOf g x, p2 ∈ gKeys g) :
    ∀ x ∈ vf, ∀ p2 ∈ parentsOf g x, p2 ∈ gKeys g := by
  refine travGo_inv
    (fun g1 v1 _ _ => (∀ k, parentsOf g1 k = parentsOf g k) ∧
      (gKeys g1 = gKeys g) ∧
      ∀ x ∈ v1, ∀ p2 ∈ parentsOf g x, p2 ∈ gKeys g)
    (fun _ vf1 => ∀ x ∈ vf1, ∀ p2 ∈ parentsOf g x, p2 ∈ gKeys g)
    ?_ (fun _ _ hP => hP.2.2) n g v q c gf vf h ⟨fun _ => rfl, rfl, hc0⟩
  intro g1 v1 q1 c1 g2 v2 q2 c2 hs hP
  obtain ⟨hpres, hkeys, hPk⟩ := hP
  rcases travStep_next_spec hs with
    ⟨h1, rest, hc, hq, hg, hv, hq2, hc2⟩ | ⟨hc, hg, hv, hq2, hc2⟩ |
    ⟨hash, hc, hne, hA, hcv, hv, hq2, hc2⟩ |
    ⟨hash, hc, hne, hA, hcv, hP2, hv, hq2, hc2⟩ |
    ⟨hash, p, ps, hc, hne, hA, hcv, hP2, hv, hq2, hc2⟩
  · subst hg; subst hv; exact ⟨hpres, hkeys, hPk⟩
  · subst hg; subst hv; exact ⟨hpres, hkeys, hPk⟩
  · subst hv
    exact ⟨fun k => (addCE_parentsOf _ _ _ _ hA k).trans (hpres k),
      (addCE_ok_keys _ _ _ _ hA).trans hkeys, hPk⟩
  · subst hv
    refine ⟨fun k => (addCE_parentsOf _ _ _ _ hA k).trans (hpres k),
      (addCE_ok_keys _ _ _ _ hA).trans hkeys, fun x hx p2 hp2 => ?_⟩
    rcases List.mem_cons.mp hx with rfl | hx2
    · have := addCE_ok_mem _ _ _ _ hA p2 (by rw [hpres x]; exact hp2)
      rwa [hkeys] at this
    · exact hPk x hx2 p2 hp2
  · subst hv
    refine ⟨fun k => (addCE_parentsOf _ _ _ _ hA k).trans (hpres k),
      (addCE_ok_keys _ _ _ _ hA).trans hkeys, fun x hx p2 hp2 => ?_⟩
    rcases List.mem_cons.mp hx with rfl | hx2
    · have := addCE_ok_mem _ _ _ _ hA p2 (by rw [hpres x]; exact hp2)
      rwa [hkeys] at this
    · exact hPk x hx2 p2 hp2

/-! ## The reachability characterization of the traversal -/

theorem rtrav_congr {gA gB : Graph} {s1 s2 : List String}
    (hpar : ∀ k, parentsOf gB k = parentsOf gA k)
    (hseed : ∀ x, x ∈ s1 ↔ x ∈ s2) :
    ∀ x, RTrav gA s1 x → RTrav gB s2 x := by
  intro x h
  induction h with
  | seed hm hne => exact RTrav.seed ((hseed _).mp hm) hne
  | step hr hp hne ih => exact RTrav.step ih (by rw [hpar]; exact hp) hne

theorem travGo_visited_iff {n : Nat} {g : Graph} {q : List String}
    {gf : Graph} {vf : List String}
    (h : travGo n g [] q none = some (.ok (gf, vf))) :
    ∀ x, x ∈ vf ↔ RTrav g q x := by
  intro x
  constructor
  · intro hx
    refine travGo_visited_sound h (RTrav g q) ?_ ?_ ?_ ?_ x hx
    · intro h2 p2 hr hp hne
      exact RTrav.step hr hp hne
    · intro y hy
      exact absurd hy (List.not_mem_nil _)
    · intro y hy hne
      exact RTrav.seed hy hne
    · intro y hy
      cases hy
  · intro hr
    induction hr with
    | seed hm hne => exact travGo_absorb h _ (Or.inr (Or.inl ⟨hm, hne⟩))
    | step hr2 hp hne ih =>
      exact travGo_visited_closed h
        (fun y hy => absurd hy (List.not_mem_nil _)) _ ih _ hp hne

theorem travGo_children_iff {n : Nat} {g : Graph} {q : List String}
    {gf : Graph} {vf : List String}
    (h : travGo n g [] q none = some (.ok (gf, vf)))
    (h0 : ∀ p2, childrenOf g p2 = []) :
    ∀ p2 x, x ∈ childrenOf gf p2 ↔ (RTrav g q x ∧ p2 ∈ parentsOf g x) := by
  intro p2 x
  constructor
  · intro hx
    rcases travGo_children_sound h p2 x hx with h1 | ⟨h1, h2⟩
    · rw [h0] at h1
      cases h1
    · exact ⟨(travGo_visited_iff h x).mp h2, h1⟩
  · rintro ⟨hr, hp⟩
    exact travGo_children_complete h
      (fun y hy => absurd hy (List.not_mem_nil _)) x
      ((travGo_visited_iff h x).mpr hr) p2 hp

/-! ## Lemmas on indexGraph and the ref partition -/

theorem gFind_append (g1 g2 : Graph) (k : String) :
    gFind (g1 ++ g2) k =
      match gFind g1 k with
      | some c => some c
      | none => gFind g2 k := by
  induction g1 with
  | nil => simp [gFind]
  | cons p rest ih =>
    obtain ⟨k2, c2⟩ := p
    by_cases hp : k2 = k
    · simp [gFind, hp]
    · simp only [List.cons_append, gFind, if_neg hp]
      exact ih

theorem gInsert_children {g : Graph} {k : String} {c : Commit}
    (hc : c.children = []) (h : ∀ p2, childrenOf g p2 = []) :
    ∀ p2, childrenOf (gInsert g k c) p2 = [] := by
  intro p2
  unfold gInsert
  by_cases hk : (gKeys g).contains k = true
  · rw [if_pos hk]
    by_cases hp : p2 = k
    · subst hp
      rw [childrenOf_gSet_self_of_mem _ (List.elem_iff.mp hk)]
      exact hc
    · rw [childrenOf_gSet_ne _ hp]
      exact h p2
  · rw [if_neg hk]
    simp only [childrenOf, gGet, gFind_append]
    cases hf : gFind g p2 with
    | some c2 =>
      have := h p2
      simp only [childrenOf, gGet, hf] at this
      simpa [hf] using this
    | none =>
      simp only [hf]
      simp only [gFind]
      by_cases hp : k = p2
      · simp [hp, hc]
      · simp [hp, zeroCommit]

theorem foldl_indexStep_children (logs : List LogEntry) :
    ∀ (acc : Graph), (∀ p2, childrenOf acc p2 = []) →
    ∀ p2, childrenOf (logs.foldl indexStep acc) p2 = [] := by
  induction logs with
  | nil => intro acc h; exact h
  | cons e rest ih =>
    intro acc h
    exact ih _ (gInsert_children rfl h)

theorem indexGraph_children (logs : List LogEntry) :
    ∀ p2, childrenOf (indexGraph logs) p2 = [] :=
  foldl_indexStep_children logs [] (fun p2 => rfl)

theorem gKeys_append (g1 g2 : Graph) : gKeys (g1 ++ g2) = gKeys g1 ++ gKeys g2 := by
  simp [gKeys]

theorem gInsert_keys_nodup {g : Graph} {k : String} (c : Commit)
    (h : (gKeys g).Nodup) : (gKeys (gInsert g k c)).Nodup := by
  unfold gInsert
  by_cases hk : (gKeys g).contains k = true
  · rw [if_pos hk, gKeys_gSet]
    exact h
  · rw [if_neg hk, gKeys_append]
    have hnm : k ∉ gKeys g := fun hm => hk (List.elem_iff.mpr hm)
    have hsing : (gKeys [(k, c)]).Nodup := List.nodup_singleton _
    refine List.Nodup.append h hsing ?_
    intro a ha hb
    simp only [gKeys, List.map_cons, List.map_nil, List.mem_singleton] at hb
    subst hb
    exact hnm ha

theorem foldl_indexStep_nodup (logs : List LogEntry) :
    ∀ (acc : Graph), (gKeys acc).Nodup →
    (gKeys (logs.foldl indexStep acc)).Nodup := by
  induction logs with
  | nil => intro acc h; exact h
  | cons e rest ih =>
    intro acc h
    exact ih _ (gInsert_keys_nodup _ h)

theorem indexGraph_keys_nodup (logs : List LogEntry) :
    (gKeys (indexGraph logs)).Nodup :=
  foldl_indexStep_nodup logs [] List.nodup_nil

theorem tMap_keys_set (m : List (String × String)) (k v : String) :
    (m.map (fun p => if p.1 = k then (k, v) else p)).map Prod.fst =
      m.map Prod.fst := by
  induction m with
  | nil => rfl
  | cons p rest ih =>
    obtain ⟨k2, v2⟩ := p
    simp only [List.map_cons] at *
    by_cases hp : k2 = k
    · simp [hp, ih]
    · simp [hp, ih]

theorem tipKeys_tInsert (m : List (String × String)) (k v : String) :
    ∀ x, x ∈ tipKeys (tInsert m k v) ↔ x ∈ tipKeys m ∨ x = k := by
  intro x
  unfold tInsert tipKeys
  by_cases hc : (m.map Prod.fst).contains k = true
  · rw [if_pos hc, tMap_keys_set]
    constructor
    · exact fun hm => Or.inl hm
    · rintro (hm | rfl)
      · exact hm
      · exact List.elem_iff.mp hc
  · rw [if_neg hc]
    simp

theorem foldl_graphTipsStep_keys (g : Graph) :
    ∀ (refs : List Ref) (acc : List (String × String) × List String) (x : String),
    x ∈ tipKeys (refs.foldl (graphTipsStep g) acc).1 ↔
      x ∈ tipKeys acc.1 ∨ (x ∈ gKeys g ∧ ∃ r ∈ refs, r.Hash = x) := by
  intro refs
  induction refs with
  | nil => intro acc x; simp
  | cons r rest ih =>
    intro acc x
    rw [List.foldl_cons, ih]
    unfold graphTipsStep
    by_cases hc : (gKeys g).contains r.Hash = true
    · rw [if_pos hc]
      simp only []
      rw [tipKeys_tInsert]
      constructor
      · rintro ((hm | rfl) | ⟨hk, rr, hrr, hx⟩)
        · exact Or.inl hm
        · exact Or.inr ⟨List.elem_iff.mp hc, r, List.mem_cons_self _ _, rfl⟩
        · exact Or.inr ⟨hk, rr, List.mem_cons_of_mem _ hrr, hx⟩
      · rintro (hm | ⟨hk, rr, hrr, hx⟩)
        · exact Or.inl (Or.inl hm)
        · rcases List.mem_cons.mp hrr with rfl | hrr2
          · exact Or.inl (Or.inr hx.symm)
          · exact Or.inr ⟨hk, rr, hrr2, hx⟩
    · rw [if_neg hc]
      simp only []
      constructor
      · rintro (hm | ⟨hk, rr, hrr, hx⟩)
        · exact Or.inl hm
        · exact Or.inr ⟨hk, rr, List.mem_cons_of_mem _ hrr, hx⟩
      · rintro (hm | ⟨hk, rr, hrr, hx⟩)
        · exact Or.inl hm
        · rcases List.mem_cons.mp hrr with rfl | hrr2
          · subst hx
            exact absurd (List.elem_iff.mpr hk) hc
          · exact Or.inr ⟨hk, rr, hrr2, hx⟩

theorem foldl_graphTipsStep_missing (g : Graph) :
    ∀ (refs : List Ref) (acc : List (String × String) × List String),
    (refs.foldl (graphTipsStep g) acc).2 =
      acc.2 ++ (refs.filter (fun r => !(gKeys g).contains r.Hash)).map Ref.Hash := by
  intro refs
  induction refs with
  | nil => intro acc; simp
  | cons r rest ih =>
    intro acc
    rw [List.foldl_cons, ih]
    unfold graphTipsStep
    by_cases hc : (gKeys g).contains r.Hash = true
    · rw [if_pos hc, List.filter_cons_of_neg (by rw [hc]; decide)]
    · have hcf : (gKeys g).contains r.Hash = false := by
        cases hb : (gKeys g).contains r.Hash with
        | false => rfl
        | true => exact absurd hb hc
      rw [if_neg hc, List.filter_cons_of_pos (by rw [hcf]; decide)]
      simp

theorem makeGraphTips_keys (g : Graph) (refs : List Ref) (x : String) :
    x ∈ tipKeys (makeGraphTips g refs).1 ↔
      x ∈ gKeys g ∧ ∃ r ∈ refs, r.Hash = x := by
  rw [makeGraphTips, foldl_graphTipsStep_keys]
  simp [tipKeys]

theorem makeGraphTips_missing (g : Graph) (refs : List Ref) :
    (makeGraphTips g refs).2 =
      (refs.filter (fun r => !(gKeys g).contains r.Hash)).map Ref.Hash := by
  rw [makeGraphTips, foldl_graphTipsStep_missing]
  rfl

theorem makeGraphTips_append_dangling (g : Graph) (refs : List Ref) (r : Ref)
    (h : r.Hash ∉ gKeys g) :
    makeGraphTips g (refs ++ [r]) =
      ((makeGraphTips g refs).1, (makeGraphTips g refs).2 ++ [r.Hash]) := by
  unfold makeGraphTips
  rw [List.foldl_append]
  simp only [List.foldl_cons, List.foldl_nil]
  unfold graphTipsStep
  rw [if_neg (by rw [contains_eq_false_iff.mpr h]; exact Bool.false_ne_true)]

/-! ## GetRepoInfo inversion -/

theorem getRepoInfo_ok_inv {logs : List LogEntry} {refs : List Ref} {fuel : Nat}
    {info : RepoInfo} (h : GetRepoInfo logs refs fuel = some (.ok info)) :
    ∃ gf vf, travGo fuel (indexGraph logs) []
        (tipKeys (makeGraphTips (indexGraph logs) refs).1) none =
        some (.ok (gf, vf)) ∧
      info = ⟨gf, vf,
        (tipKeys (makeGraphTips (indexGraph logs) refs).1).filter
          (fun k => (childrenOf gf k).isEmpty),
        (makeGraphTips (indexGraph logs) refs).2⟩ := by
  simp only [GetRepoInfo] at h
  split at h
  · cases h
  · cases h
  · next gf vf heq =>
    injection h with h
    injection h with h
    exact ⟨gf, vf, heq, h.symm⟩

/-! ## C1: the closure invariant -/

/-- C1 counterexample: a fetched commit a whose parent x is absent from
the log, with no refs.  GetRepoInfo completes without any error, yet x
is a parent in the built graph and not a key of it: the closure
invariant is only enforced for commits the traversal reaches, so it
does not hold for every commit in the built graph. -/
theorem closure_claim_counterexample :
    GetRepoInfo [⟨"a", 0, "", "", ["x"]⟩] [] 1 =
      some (.ok ⟨[("a", ⟨"a", 0, "", "", ["x"], []⟩)], [], [], []⟩) ∧
    "x" ∈ parentsOf [("a", ⟨"a", 0, "", "", ["x"], []⟩)] "a" ∧
    "x" ∉ gKeys [("a", ⟨"a", 0, "", "", ["x"], []⟩)] := by
  refine ⟨by decide, by decide, by decide⟩

/-- C1 amended: when GetRepoInfo completes without error, every commit
actually visited by the traversal has all of its parents present as
keys of the built graph (a missing parent of a visited commit is the
fatal error), and no parent list is ever modified (nothing is silently
dropped); commits unreachable from every ref are not checked. -/
theorem closure_holds_for_visited (logs : List LogEntry) (refs : List Ref)
    (fuel : Nat) (info : RepoInfo)
    (h : GetRepoInfo logs refs fuel = some (.ok info)) :
    (∀ x ∈ info.visited, ∀ p2 ∈ parentsOf info.graph x, p2 ∈ gKeys info.graph) ∧
    (∀ k, parentsOf info.graph k = parentsOf (indexGraph logs) k) := by
  obtain ⟨gf, vf, hT, rfl⟩ := getRepoInfo_ok_inv h
  have hkp := travGo_keys_parents hT
  refine ⟨?_, hkp.2⟩
  intro x hx p2 hp2
  have h2 := travGo_parents_in_keys hT
    (fun y hy => absurd hy (List.not_mem_nil _)) x hx p2
    (by rw [← hkp.2 x]; exact hp2)
  show p2 ∈ gKeys gf
  rw [hkp.1]
  exact h2

theorem closure_holds_for_visited_witness :
    (GetRepoInfo logsExample refsExample 10 = some (.ok repoInfoExample)) ∧
    ((∀ x ∈ repoInfoExample.visited, ∀ p2 ∈ parentsOf repoInfoExample.graph x,
        p2 ∈ gKeys repoInfoExample.graph) ∧
     (∀ k, parentsOf repoInfoExample.graph k = parentsOf (indexGraph logsExample) k)) :=
  ⟨by decide,
   closure_holds_for_visited logsExample refsExample 10 repoInfoExample (by decide)⟩

/-! ## C2: tip correctness -/

/-- C2: after GetRepoInfo completes, a ref whose hash is in the built
graph is in the final tip set if and only if its target commit ended
up with an empty children set; refs whose target gained children
during traversal are removed from tips. -/
theorem tips_iff_no_children (logs : List LogEntry) (refs : List Ref)
    (fuel : Nat) (info : RepoInfo)
    (h : GetRepoInfo logs refs fuel = some (.ok info)) :
    ∀ r ∈ refs, r.Hash ∈ gKeys info.graph →
      (r.Hash ∈ info.tips ↔ childrenOf info.graph r.Hash = []) := by
  intro r hr hkey
  obtain ⟨gf, vf, hT, rfl⟩ := getRepoInfo_ok_inv h
  have hkeys := (travGo_keys_parents hT).1
  have hkey0 : r.Hash ∈ gKeys (indexGraph logs) := by
    rw [← hkeys]
    exact hkey
  have htk : r.Hash ∈ tipKeys (makeGraphTips (indexGraph logs) refs).1 :=
    (makeGraphTips_keys _ _ _).mpr ⟨hkey0, r, hr, rfl⟩
  constructor
  · intro ht
    have hm := List.mem_filter.mp ht
    exact List.isEmpty_iff.mp hm.2
  · intro hemp
    exact List.mem_filter.mpr ⟨htk, by rw [show childrenOf gf r.Hash = [] from hemp]; rfl⟩

theorem tips_iff_no_children_witness :
    (GetRepoInfo logsExample refsExample 10 = some (.ok repoInfoExample)) ∧
    ((⟨"c", "main"⟩ : Ref) ∈ refsExample) ∧
    ("c" ∈ gKeys repoInfoExample.graph) ∧
    ("c" ∈ repoInfoExample.tips ↔ childrenOf repoInfoExample.graph "c" = []) :=
  ⟨by decide, by decide, by decide,
   tips_iff_no_children logsExample refsExample 10 repoInfoExample (by decide)
     ⟨"c", "main"⟩ (by decide) (by decide)⟩

/-! ## C5: children idempotence -/

/-- C5: on a raw graph (empty children), the traversal produces
duplicate-free children lists; running it with the seed set given in a
different order yields identical children sets; and re-running the
traversal on the annotated result changes no children set. -/
theorem traversal_children_idempotent (g : Graph) (q1 q2 : List String)
    (n1 n2 n3 : Nat) (g1 g2 g3 : Graph) (v1 v2 v3 : List String)
    (h0 : ∀ p2, childrenOf g p2 = [])
    (hq : ∀ x, x ∈ q1 ↔ x ∈ q2)
    (h1 : travGo n1 g [] q1 none = some (.ok (g1, v1)))
    (h2 : travGo n2 g [] q2 none = some (.ok (g2, v2)))
    (h3 : travGo n3 g1 [] q1 none = some (.ok (g3, v3))) :
    (∀ p2, (childrenOf g1 p2).Nodup) ∧
    (∀ p2 x, x ∈ childrenOf g2 p2 ↔ x ∈ childrenOf g1 p2) ∧
    (∀ p2 x, x ∈ childrenOf g3 p2 ↔ x ∈ childrenOf g1 p2) := by
  refine ⟨?_, ?_, ?_⟩
  · exact travGo_children_nodup h1 (fun p2 => by rw [h0]; exact List.nodup_nil)
  · intro p2 x
    rw [travGo_children_iff h2 h0 p2 x, travGo_children_iff h1 h0 p2 x]
    constructor
    · rintro ⟨hr, hp⟩
      exact ⟨rtrav_congr (fun _ => rfl) (fun y => (hq y).symm) x hr, hp⟩
    · rintro ⟨hr, hp⟩
      exact ⟨rtrav_congr (fun _ => rfl) hq x hr, hp⟩
  · intro p2 x
    have hpar1 := (travGo_keys_parents h1).2
    constructor
    · intro hx
      rcases travGo_children_sound h3 p2 x hx with hA | ⟨hA, hB⟩
      · exact hA
      · have hv3 : RTrav g1 q1 x := (travGo_visited_iff h3 x).mp hB
        have hrt : RTrav g q1 x :=
          rtrav_congr (fun k => (hpar1 k).symm) (fun _ => Iff.rfl) x hv3
        exact (travGo_children_iff h1 h0 p2 x).mpr
          ⟨hrt, by rw [← hpar1 x]; exact hA⟩
    · intro hx
      exact travGo_children_mono h3 p2 x hx

theorem traversal_children_idempotent_witness :
    (∀ p2, childrenOf (indexGraph logsExample) p2 = []) ∧
    (∀ x : String, x ∈ (["c", "b"] : List String) ↔ x ∈ (["b", "c"] : List String)) ∧
    (travGo 20 (indexGraph logsExample) [] ["c", "b"] none =
      some (.ok (annotatedGraphExample, ["a", "b", "c"]))) ∧
    (travGo 20 (indexGraph logsExample) [] ["b", "c"] none =
      some (.ok (annotatedGraphExample, ["c", "a", "b"]))) ∧
    (travGo 20 annotatedGraphExample [] ["c", "b"] none =
      some (.ok (annotatedGraphExample, ["a", "b", "c"]))) ∧
    ((∀ p2, (childrenOf annotatedGraphExample p2).Nodup) ∧
     (∀ p2 x, x ∈ childrenOf annotatedGraphExample p2 ↔
        x ∈ childrenOf annotatedGraphExample p2) ∧
     (∀ p2 x, x ∈ childrenOf annotatedGraphExample p2 ↔
        x ∈ childrenOf annotatedGraphExample p2)) :=
  ⟨indexGraph_children logsExample,
   fun x => by constructor <;> (intro hm; simp only [List.mem_cons, List.mem_singleton] at hm ⊢; tauto),
   by decide, by decide, by decide,
   traversal_children_idempotent (indexGraph logsExample) ["c", "b"] ["b", "c"]
     20 20 20 annotatedGraphExample annotatedGraphExample annotatedGraphExample
     ["a", "b", "c"] ["c", "a", "b"] ["a", "b", "c"]
     (indexGraph_children logsExample)
     (fun x => by constructor <;> (intro hm; simp only [List.mem_cons, List.mem_singleton] at hm ⊢; tauto))
     (by decide) (by decide) (by decide)⟩

/-! ## C7: dangling refs -/

/-- C7: a ref whose hash is absent from the fetched commit set never
aborts graph construction: the dangling refs are exactly enumerated in
missingRefs (in ref order), a dangling ref does not enter graphTips
(the traversal seed), and GetRepoInfo with the dangling ref appended
returns the same graph, visited set and tips, with only the dangling
hash appended to the missing list (and errs exactly when it errs
without the ref). -/
theorem dangling_refs_tolerated (logs : List LogEntry) (refs : List Ref)
    (r : Ref) (fuel : Nat) (h : r.Hash ∉ gKeys (indexGraph logs)) :
    ((makeGraphTips (indexGraph logs) refs).2 =
      (refs.filter (fun x => !(gKeys (indexGraph logs)).contains x.Hash)).map Ref.Hash) ∧
    ((makeGraphTips (indexGraph logs) (refs ++ [r])).1 =
      (makeGraphTips (indexGraph logs) refs).1) ∧
    ((makeGraphTips (indexGraph logs) (refs ++ [r])).2 =
      (makeGraphTips (indexGraph logs) refs).2 ++ [r.Hash]) ∧
    (GetRepoInfo logs (refs ++ [r]) fuel =
      (GetRepoInfo logs refs fuel).map (fun res => res.map (fun info =>
        ⟨info.graph, info.visited, info.tips, info.missing ++ [r.Hash]⟩))) := by
  have hmk := makeGraphTips_append_dangling (indexGraph logs) refs r h
  refine ⟨makeGraphTips_missing _ _, by rw [hmk], by rw [hmk], ?_⟩
  simp only [GetRepoInfo, hmk]
  cases hT : travGo fuel (indexGraph logs) []
      (tipKeys (makeGraphTips (indexGraph logs) refs).1) none with
  | none => rfl
  | some r2 =>
    cases r2 with
    | error e => rfl
    | ok gv =>
      obtain ⟨gf, vf⟩ := gv
      rfl

theorem dangling_refs_tolerated_witness :
    ("deadbeef" ∉ gKeys (indexGraph logsExample)) ∧
    (((makeGraphTips (indexGraph logsExample) refsExample).2 =
      (refsExample.filter
        (fun x => !(gKeys (indexGraph logsExample)).contains x.Hash)).map Ref.Hash) ∧
    ((makeGraphTips (indexGraph logsExample) (refsExample ++ [⟨"deadbeef", "stale-tag"⟩])).1 =
      (makeGraphTips (indexGraph logsExample) refsExample).1) ∧
    ((makeGraphTips (indexGraph logsExample) (refsExample ++ [⟨"deadbeef", "stale-tag"⟩])).2 =
      (makeGraphTips (indexGraph logsExample) refsExample).2 ++ ["deadbeef"]) ∧
    (GetRepoInfo logsExample (refsExample ++ [⟨"deadbeef", "stale-tag"⟩]) 10 =
      (GetRepoInfo logsExample refsExample 10).map (fun res => res.map (fun info =>
        ⟨info.graph, info.visited, info.tips, info.missing ++ ["deadbeef"]⟩)))) :=
  ⟨by decide,
   dangling_refs_tolerated logsExample refsExample ⟨"deadbeef", "stale-tag"⟩ 10 (by decide)⟩

/-! ## C9: termination of the traversal -/

/-- C9: for every finite log and ref set the traversal terminates:
there is a fuel bound under which GetRepoInfo finishes (cleanly or with
the fatal missing-parent error), and on success every commit was marked
visited at most once (the visited list has no duplicates; non-first
parents are queued only on the first visit, and each walk stops at an
already-visited commit or a root). -/
theorem traversal_terminates (logs : List LogEntry) (refs : List Ref) :
    ∃ (fuel : Nat) (res : Except String RepoInfo),
      GetRepoInfo logs refs fuel = some res ∧
      ∀ info, res = .ok info → info.visited.Nodup := by
  have hnd := indexGraph_keys_nodup logs
  obtain ⟨r, hr⟩ := travGo_term
    (travMeasure (indexGraph logs) []
      (tipKeys (makeGraphTips (indexGraph logs) refs).1) none)
    (indexGraph logs) [] (tipKeys (makeGraphTips (indexGraph logs) refs).1) none
    hnd (le_refl _)
  cases r with
  | error e =>
    refine ⟨travMeasure (indexGraph logs) []
        (tipKeys (makeGraphTips (indexGraph logs) refs).1) none + 1,
      .error e, ?_, fun info hinfo => by cases hinfo⟩
    simp only [GetRepoInfo]
    rw [hr]
  | ok gv =>
    obtain ⟨gf, vf⟩ := gv
    refine ⟨travMeasure (indexGraph logs) []
        (tipKeys (makeGraphTips (indexGraph logs) refs).1) none + 1,
      .ok ⟨gf, vf,
      (tipKeys (makeGraphTips (indexGraph logs) refs).1).filter
        (fun k => (childrenOf gf k).isEmpty),
      (makeGraphTips (indexGraph logs) refs).2⟩, ?_, ?_⟩
    · simp only [GetRepoInfo]
      rw [hr]
    · intro info hinfo
      injection hinfo with hinfo
      subst hinfo
      exact travGo_visited_nodup hr List.nodup_nil

/-! ## The commit heap: permutation and order lemmas -/

theorem lGet_set_self {l : List Commit} {i : Nat} (h : i < l.length) (x : Commit) :
    lGet (l.set i x) i = x := by
  rw [lGet, List.getD_eq_getElem?_getD, List.getElem?_set_self h]
  rfl

theorem lGet_set_ne {l : List Commit} {i k : Nat} (h : i ≠ k) (x : Commit) :
    lGet (l.set i x) k = lGet l k := by
  rw [lGet, lGet, List.getD_eq_getElem?_getD, List.getD_eq_getElem?_getD,
    List.getElem?_set_ne h]

theorem lSwap_length (l : List Commit) (i j : Nat) : (lSwap l i j).length = l.length := by
  simp [lSwap]

theorem lGet_lSwap_fst {l : List Commit} {i j : Nat} (hi : i < l.length)
    (hj : j < l.length) : lGet (lSwap l i j) i = lGet l j := by
  rw [lSwap]
  by_cases hij : j = i
  · subst hij
    rw [lGet_set_self (by simpa using hj)]
  · rw [lGet_set_ne hij, lGet_set_self hi]

theorem lGet_lSwap_snd {l : List Commit} {i j : Nat} (hi : i < l.length)
    (hj : j < l.length) : lGet (lSwap l i j) j = lGet l i := by
  rw [lSwap, lGet_set_self (by simpa using hj)]

theorem lGet_lSwap_other {l : List Commit} {i j k : Nat} (h1 : k ≠ i) (h2 : k ≠ j) :
    lGet (lSwap l i j) k = lGet l k := by
  rw [lSwap, lGet_set_ne (fun e => h2 e.symm), lGet_set_ne (fun e => h1 e.symm)]

theorem set_lGet_self : ∀ (l : List Commit) (i : Nat), i < l.length →
    l.set i (lGet l i) = l
  | [], i, h => by simp at h
  | x :: xs, 0, _ => rfl
  | x :: xs, i + 1, h => by
    simp only [List.set_cons_succ, List.cons.injEq, true_and]
    exact set_lGet_self xs i (by simpa using h)

theorem cons_set_perm : ∀ (xs : List Commit) (k : Nat) (x : Commit), k < xs.length →
    (lGet xs k :: xs.set k x).Perm (x :: xs)
  | [], k, x, h => by simp at h
  | z :: rest, 0, x, _ => by
    simpa using List.Perm.swap x z rest
  | z :: rest, k + 1, x, h => by
    have hr : k < rest.length := by simpa using h
    have h1 : lGet (z :: rest) (k + 1) = lGet rest k := rfl
    rw [h1, List.set_cons_succ]
    exact ((List.Perm.swap z (lGet rest k) _).trans
      ((cons_set_perm rest k x hr).cons z)).trans (List.Perm.swap x z rest)

theorem lSwap_perm : ∀ (l : List Commit) (i j : Nat), i < l.length → j < l.length →
    (lSwap l i j).Perm l
  | [], i, j, hi, _ => absurd hi (by simp)
  | x :: xs, 0, 0, _, _ => by
    simp only [lSwap, List.set_set]
    rw [set_lGet_self _ 0 (by simp)]
  | x :: xs, 0, k + 1, _, hj => by
    have hr : k < xs.length := by simpa using hj
    exact cons_set_perm xs k x hr
  | x :: xs, m + 1, 0, hi, _ => by
    have hr : m < xs.length := by simpa using hi
    exact cons_set_perm xs m x hr
  | x :: xs, m + 1, k + 1, hi, hj => by
    exact (lSwap_perm xs m k (by simpa using hi) (by simpa using hj)).cons x

theorem heapUpGo_perm : ∀ (fuel : Nat) (l : List Commit) (j : Nat), j < fuel →
    j < l.length → (heapUpGo fuel l j).Perm l := by
  intro fuel
  induction fuel with
  | zero => intro l j hf hj; omega
  | succ fuel ih =>
    intro l j hf hj
    rw [heapUpGo]
    split
    · exact List.Perm.refl _
    · next hne =>
      have hlt : (j - 1) / 2 < j := by omega
      have hp : (j - 1) / 2 < l.length := by omega
      split
      · exact (ih _ _ (by omega) (by rw [lSwap_length]; exact hp)).trans
          (lSwap_perm l _ j hp hj)
      · exact List.Perm.refl _

theorem heapUp_perm (j : Nat) (l : List Commit) (hj : j < l.length) : (heapUp l j).Perm l :=
  heapUpGo_perm (j + 1) l j (by omega) hj

theorem heapDownGo_perm : ∀ (g : Nat) (l : List Commit) (i n : Nat), n - i ≤ g →
    n ≤ l.length → (heapDownGo g l i n).Perm l := by
  intro g
  induction g with
  | zero =>
    intro l i n hg hn
    exact List.Perm.refl l
  | succ g ih =>
    intro l i n hg hn
    rw [heapDownGo]
    split
    · next h1 =>
      have hi : i < l.length := by omega
      have hj1 : 2 * i + 1 < l.length := by omega
      split
      · next h2 =>
        have hj2 : 2 * i + 2 < l.length := by omega
        split
        · exact (ih _ _ _ (by omega) (by rw [lSwap_length]; exact hn)).trans
            (lSwap_perm l i (2 * i + 2) hi hj2)
        · exact List.Perm.refl _
      · split
        · exact (ih _ _ _ (by omega) (by rw [lSwap_length]; exact hn)).trans
            (lSwap_perm l i (2 * i + 1) hi hj1)
        · exact List.Perm.refl _
    · exact List.Perm.refl _

theorem heapDownGo_untouched : ∀ (g : Nat) (l : List Commit) (i n : Nat), n - i ≤ g →
    ∀ k, n ≤ k → lGet (heapDownGo g l i n) k = lGet l k := by
  intro g
  induction g with
  | zero =>
    intro l i n hg k hk
    rfl
  | succ g ih =>
    intro l i n hg k hk
    rw [heapDownGo]
    split
    · next h1 =>
      split
      · next h2 =>
        split
        · rw [ih _ _ _ (by omega) k hk, lGet_lSwap_other (by omega) (by omega)]
        · rfl
      · split
        · rw [ih _ _ _ (by omega) k hk, lGet_lSwap_other (by omega) (by omega)]
        · rfl
    · rfl

theorem commitLess_lt {a b : Commit} (h : commitLess a b = true) :
    a.timestamp < b.timestamp := by
  simpa [commitLess] using h

theorem commitLess_ge {a b : Commit} (h : ¬ (commitLess a b = true)) :
    b.timestamp ≤ a.timestamp := by
  simp [commitLess] at h
  omega

theorem lGet_append_lt {l l2 : List Commit} {k : Nat} (h : k < l.length) :
    lGet (l ++ l2) k = lGet l k := by
  rw [lGet, lGet, List.getD_eq_getElem?_getD, List.getD_eq_getElem?_getD,
    List.getElem?_append, if_pos h]

theorem heapUpGo_ord : ∀ (fuel : Nat) (l : List Commit) (j : Nat), j < fuel →
    j < l.length →
    (∀ a k : Nat, k < l.length → (k = 2 * a + 1 ∨ k = 2 * a + 2) → k ≠ j →
      (lGet l a).timestamp ≤ (lGet l k).timestamp) →
    (∀ k : Nat, k < l.length → (k = 2 * j + 1 ∨ k = 2 * j + 2) →
      (lGet l ((j - 1) / 2)).timestamp ≤ (lGet l k).timestamp) →
    heapOrd (heapUpGo fuel l j) := by
  intro fuel
  induction fuel with
  | zero =>
    intro l j hf hj h1 h2
    exact absurd hf (Nat.not_lt_zero j)
  | succ fuel ih =>
    intro l j hf hj h1 h2
    rw [heapUpGo]
    split
    · next hpj =>
      have hj0 : j = 0 := by omega
      intro a k hk hrel
      by_cases hkj : k = j
      · omega
      · exact h1 a k hk hrel hkj
    · next hpj =>
      have hj0 : 0 < j := by omega
      split
      · next hless =>
        have hlt : (lGet l j).timestamp < (lGet l ((j - 1) / 2)).timestamp :=
          commitLess_lt hless
        have hpj2 : (j - 1) / 2 < j := by omega
        have hpl : (j - 1) / 2 < l.length := by omega
        apply ih _ _ (by omega) (by rw [lSwap_length]; exact hpl)
        · intro a k hk hrel hkp
          rw [lSwap_length] at hk
          by_cases hkj : k = j
          · have hap : a = (j - 1) / 2 := by omega
            rw [hkj, hap, lGet_lSwap_fst hpl hj, lGet_lSwap_snd hpl hj]
            omega
          · by_cases haj : a = j
            · have hknp : k ≠ (j - 1) / 2 := by omega
              rw [haj, lGet_lSwap_snd hpl hj, lGet_lSwap_other hknp hkj]
              refine h2 k hk ?_
              rw [haj] at hrel
              exact hrel
            · by_cases hap : a = (j - 1) / 2
              · rw [hap, lGet_lSwap_fst hpl hj, lGet_lSwap_other hkp hkj]
                have h3 := h1 a k hk hrel hkj
                rw [hap] at h3
                omega
              · rw [lGet_lSwap_other hkp hkj, lGet_lSwap_other hap haj]
                exact h1 a k hk hrel hkj
        · have key : (lGet (lSwap l ((j - 1) / 2) j) (((j - 1) / 2 - 1) / 2)).timestamp ≤
              (lGet l ((j - 1) / 2)).timestamp := by
            by_cases hp0 : (j - 1) / 2 = 0
            · have he : ((j - 1) / 2 - 1) / 2 = (j - 1) / 2 := by omega
              rw [he, lGet_lSwap_fst hpl hj]
              omega
            · have hppp : ((j - 1) / 2 - 1) / 2 ≠ (j - 1) / 2 := by omega
              have hppj : ((j - 1) / 2 - 1) / 2 ≠ j := by omega
              rw [lGet_lSwap_other hppp hppj]
              exact h1 _ _ hpl (by omega) (by omega)
          intro k hk hrel
          rw [lSwap_length] at hk
          by_cases hkj : k = j
          · rw [hkj, lGet_lSwap_snd hpl hj]
            exact key
          · have hkp : k ≠ (j - 1) / 2 := by omega
            rw [lGet_lSwap_other hkp hkj]
            exact key.trans (h1 _ k hk hrel hkj)
      · next hless =>
        have hge : (lGet l ((j - 1) / 2)).timestamp ≤ (lGet l j).timestamp :=
          commitLess_ge hless
        intro a k hk hrel
        by_cases hkj : k = j
        · have hap : a = (j - 1) / 2 := by omega
          rw [hkj, hap]
          exact hge
        · exact h1 a k hk hrel hkj

theorem heapPush_ord {l : List Commit} (h : heapOrd l) (x : Commit) :
    heapOrd (heapPush l x) := by
  show heapOrd (heapUpGo (l.length + 1) (l ++ [x]) l.length)
  apply heapUpGo_ord (l.length + 1) (l ++ [x]) l.length (by omega) (by simp)
  · intro a k hk hrel hkn
    rw [List.length_append, List.length_singleton] at hk
    have hkl : k < l.length := by omega
    have hal : a < l.length := by omega
    rw [lGet_append_lt hkl, lGet_append_lt hal]
    exact h a k hkl hrel
  · intro k hk hrel
    rw [List.length_append, List.length_singleton] at hk
    omega

theorem heapDownGo_ord : ∀ (g : Nat) (l : List Commit) (i n : Nat), n - i ≤ g →
    n ≤ l.length →
    (∀ a k : Nat, k < n → (k = 2 * a + 1 ∨ k = 2 * a + 2) → a ≠ i →
      (lGet l a).timestamp ≤ (lGet l k).timestamp) →
    (∀ k : Nat, k < n → (k = 2 * i + 1 ∨ k = 2 * i + 2) → 0 < i →
      (lGet l ((i - 1) / 2)).timestamp ≤ (lGet l k).timestamp) →
    ∀ a k : Nat, k < n → (k = 2 * a + 1 ∨ k = 2 * a + 2) →
      (lGet (heapDownGo g l i n) a).timestamp ≤ (lGet (heapDownGo g l i n) k).timestamp := by
  intro g
  induction g with
  | zero =>
    intro l i n hg hn h1 h2 a k hk hrel
    show (lGet l a).timestamp ≤ (lGet l k).timestamp
    by_cases hai : a = i
    · omega
    · exact h1 a k hk hrel hai
  | succ g ih =>
    intro l i n hg hn h1 h2 a k hk hrel
    rw [heapDownGo]
    split
    · next hc1 =>
      have hil : i < l.length := by omega
      have hj1 : 2 * i + 1 < l.length := by omega
      split
      · next hc2 =>
        have hj2 : 2 * i + 2 < l.length := by omega
        have hlt21 : (lGet l (2 * i + 2)).timestamp < (lGet l (2 * i + 1)).timestamp :=
          commitLess_lt hc2.2
        split
        · next hswap =>
          have hlt : (lGet l (2 * i + 2)).timestamp < (lGet l i).timestamp :=
            commitLess_lt hswap
          refine ih (lSwap l i (2 * i + 2)) (2 * i + 2) n (by omega)
            (by rw [lSwap_length]; exact hn) ?_ ?_ a k hk hrel
          · intro a2 k2 hk2 hrel2 hne
            by_cases hk2i : k2 = i
            · have hipos : 0 < i := by omega
              have ha2 : a2 = (i - 1) / 2 := by omega
              rw [hk2i, ha2, lGet_lSwap_other (by omega) (by omega),
                lGet_lSwap_fst hil hj2]
              exact h2 (2 * i + 2) hc2.1 (by omega) hipos
            · by_cases hk2j : k2 = 2 * i + 2
              · have ha2 : a2 = i := by omega
                rw [hk2j, ha2, lGet_lSwap_fst hil hj2, lGet_lSwap_snd hil hj2]
                omega
              · by_cases ha2i : a2 = i
                · have hk21 : k2 = 2 * i + 1 := by omega
                  rw [ha2i, hk21, lGet_lSwap_fst hil hj2,
                    lGet_lSwap_other (by omega) (by omega)]
                  omega
                · rw [lGet_lSwap_other hk2i hk2j, lGet_lSwap_other ha2i hne]
                  exact h1 a2 k2 hk2 hrel2 ha2i
          · intro k2 hk2 hrel2 hpos
            have hpar : (2 * i + 2 - 1) / 2 = i := by omega
            have hk2ne_i : k2 ≠ i := by omega
            have hk2ne_j : k2 ≠ 2 * i + 2 := by omega
            rw [hpar, lGet_lSwap_fst hil hj2, lGet_lSwap_other hk2ne_i hk2ne_j]
            exact h1 (2 * i + 2) k2 hk2 hrel2 (by omega)
        · next hstop =>
          have hge : (lGet l i).timestamp ≤ (lGet l (2 * i + 2)).timestamp :=
            commitLess_ge hstop
          by_cases hai : a = i
          · rcases hrel with hr | hr
            · rw [hai] at hr
              rw [hai, hr]
              omega
            · rw [hai] at hr
              rw [hai, hr]
              omega
          · exact h1 a k hk hrel hai
      · next hc2 =>
        have hsib : 2 * i + 2 < n →
            (lGet l (2 * i + 1)).timestamp ≤ (lGet l (2 * i + 2)).timestamp := by
          intro hlt2
          by_cases hL : commitLess (lGet l (2 * i + 2)) (lGet l (2 * i + 1)) = true
          · exact absurd ⟨hlt2, hL⟩ hc2
          · exact commitLess_ge hL
        split
        · next hswap =>
          have hlt : (lGet l (2 * i + 1)).timestamp < (lGet l i).timestamp :=
            commitLess_lt hswap
          refine ih (lSwap l i (2 * i + 1)) (2 * i + 1) n (by omega)
            (by rw [lSwap_length]; exact hn) ?_ ?_ a k hk hrel
          · intro a2 k2 hk2 hrel2 hne
            by_cases hk2i : k2 = i
            · have hipos : 0 < i := by omega
              have ha2 : a2 = (i - 1) / 2 := by omega
              rw [hk2i, ha2, lGet_lSwap_other (by omega) (by omega),
                lGet_lSwap_fst hil hj1]
              exact h2 (2 * i + 1) hc1 (by omega) hipos
            · by_cases hk2j : k2 = 2 * i + 1
              · have ha2 : a2 = i := by omega
                rw [hk2j, ha2, lGet_lSwap_fst hil hj1, lGet_lSwap_snd hil hj1]
                omega
              · by_cases ha2i : a2 = i
                · have hk22 : k2 = 2 * i + 2 := by omega
                  have hs := hsib (by omega)
                  rw [ha2i, hk22, lGet_lSwap_fst hil hj1,
                    lGet_lSwap_other (by omega) (by omega)]
                  omega
                · rw [lGet_lSwap_other hk2i hk2j, lGet_lSwap_other ha2i hne]
                  exact h1 a2 k2 hk2 hrel2 ha2i
          · intro k2 hk2 hrel2 hpos
            have hpar : (2 * i + 1 - 1) / 2 = i := by omega
            have hk2ne_i : k2 ≠ i := by omega
            have hk2ne_j : k2 ≠ 2 * i + 1 := by omega
            rw [hpar, lGet_lSwap_fst hil hj1, lGet_lSwap_other hk2ne_i hk2ne_j]
            exact h1 (2 * i + 1) k2 hk2 hrel2 (by omega)
        · next hstop =>
          have hge : (lGet l i).timestamp ≤ (lGet l (2 * i + 1)).timestamp :=
            commitLess_ge hstop
          by_cases hai : a = i
          · rcases hrel with hr | hr
            · rw [hai] at hr
              rw [hai, hr]
              omega
            · rw [hai] at hr
              have hs := hsib (by omega)
              rw [hai, hr]
              omega
          · exact h1 a k hk hrel hai
    · next hc1 =>
      by_cases hai : a = i
      · omega
      · exact h1 a k hk hrel hai

theorem heapDown_perm (l : List Commit) (i n : Nat) (hn : n ≤ l.length) :
    (heapDown l i n).Perm l :=
  heapDownGo_perm n l i n (by omega) hn

theorem heapDown_untouched (l : List Commit) (i n : Nat) :
    ∀ k, n ≤ k → lGet (heapDown l i n) k = lGet l k :=
  fun k hk => heapDownGo_untouched n l i n (by omega) k hk

theorem heapDown_ord (l : List Commit) (i n : Nat) (hn : n ≤ l.length)
    (h1 : ∀ a k : Nat, k < n → (k = 2 * a + 1 ∨ k = 2 * a + 2) → a ≠ i →
      (lGet l a).timestamp ≤ (lGet l k).timestamp)
    (h2 : ∀ k : Nat, k < n → (k = 2 * i + 1 ∨ k = 2 * i + 2) → 0 < i →
      (lGet l ((i - 1) / 2)).timestamp ≤ (lGet l k).timestamp) :
    ∀ a k : Nat, k < n → (k = 2 * a + 1 ∨ k = 2 * a + 2) →
      (lGet (heapDown l i n) a).timestamp ≤ (lGet (heapDown l i n) k).timestamp :=
  heapDownGo_ord n l i n (by omega) hn h1 h2

theorem heapOrd_root_min {l : List Commit} (h : heapOrd l) :
    ∀ k, k < l.length → (lGet l 0).timestamp ≤ (lGet l k).timestamp := by
  intro k
  induction k using Nat.strong_induction_on with
  | _ k ih =>
    intro hk
    by_cases hk0 : k = 0
    · rw [hk0]
    · have hp : (k - 1) / 2 < k := by omega
      exact (ih _ hp (by omega)).trans (h ((k - 1) / 2) k hk (by omega))

theorem lGet_take {l : List Commit} {n k : Nat} (h : k < n) :
    lGet (l.take n) k = lGet l k := by
  rw [lGet, lGet, List.getD_eq_getElem?_getD, List.getD_eq_getElem?_getD,
    List.getElem?_take, if_pos h]

theorem lGet_eq_get {l : List Commit} {k : Nat} (h : k < l.length) :
    lGet l k = l.get ⟨k, h⟩ := by
  rw [lGet, List.getD_eq_getElem?_getD, List.getElem?_eq_getElem h]
  rfl

theorem heapPop_spec {l : List Commit} (hne : l ≠ []) (h : heapOrd l) :
    (heapPop l).1 = lGet l 0 ∧
    ((heapPop l).1 :: (heapPop l).2).Perm l ∧
    heapOrd (heapPop l).2 := by
  have hlen : 0 < l.length := List.length_pos.mpr hne
  have hnl : l.length - 1 < l.length := by omega
  have hswl : (lSwap l 0 (l.length - 1)).length = l.length := lSwap_length l 0 (l.length - 1)
  have hdper : (heapDown (lSwap l 0 (l.length - 1)) 0 (l.length - 1)).Perm
      (lSwap l 0 (l.length - 1)) :=
    heapDown_perm (lSwap l 0 (l.length - 1)) 0 (l.length - 1) (by rw [hswl]; omega)
  have hl3len : (heapDown (lSwap l 0 (l.length - 1)) 0 (l.length - 1)).length = l.length := by
    rw [hdper.length_eq, hswl]
  have hl3perm : (heapDown (lSwap l 0 (l.length - 1)) 0 (l.length - 1)).Perm l :=
    hdper.trans (lSwap_perm l 0 (l.length - 1) hlen hnl)
  have hfst : (heapPop l).1 = lGet l 0 := by
    show lGet (heapDown (lSwap l 0 (l.length - 1)) 0 (l.length - 1)) (l.length - 1) = lGet l 0
    rw [heapDown_untouched (lSwap l 0 (l.length - 1)) 0 (l.length - 1) _ (le_refl _),
      lGet_lSwap_snd hlen hnl]
  refine ⟨hfst, ?_, ?_⟩
  · show ((heapPop l).1 :: (heapPop l).2).Perm l
    have hsplit := List.take_append_drop (l.length - 1)
      (heapDown (lSwap l 0 (l.length - 1)) 0 (l.length - 1))
    have hdrop : (heapDown (lSwap l 0 (l.length - 1)) 0 (l.length - 1)).drop (l.length - 1) =
        [(heapPop l).1] := by
      rw [List.drop_eq_getElem_cons (by omega), List.drop_eq_nil_of_le (by omega)]
      have := lGet_eq_get (l := heapDown (lSwap l 0 (l.length - 1)) 0 (l.length - 1))
        (k := l.length - 1) (by omega)
      show _ = [lGet (heapDown (lSwap l 0 (l.length - 1)) 0 (l.length - 1)) (l.length - 1)]
      rw [this]
      rfl
    rw [← hsplit, hdrop] at hl3perm
    exact (List.perm_append_singleton _ _).symm.trans hl3perm
  · show heapOrd ((heapDown (lSwap l 0 (l.length - 1)) 0 (l.length - 1)).take (l.length - 1))
    intro a k hk hrel
    rw [List.length_take, hl3len] at hk
    have hkn : k < l.length - 1 := by omega
    have han : a < l.length - 1 := by omega
    rw [lGet_take hkn, lGet_take han]
    refine heapDown_ord (lSwap l 0 (l.length - 1)) 0 (l.length - 1)
      (by rw [hswl]; omega) ?_ ?_ a k hkn hrel
    · intro a2 k2 hk2 hrel2 hne
      have ha2n : a2 ≠ l.length - 1 := by omega
      have hk2n : k2 ≠ l.length - 1 := by omega
      have hk20 : k2 ≠ 0 := by omega
      rw [lGet_lSwap_other hne ha2n, lGet_lSwap_other hk20 hk2n]
      exact h a2 k2 (by omega) hrel2
    · intro k2 hk2 hrel2 hpos
      omega

theorem drainHeapGo_spec : ∀ (g : Nat) (l : List Commit), l.length ≤ g → heapOrd l →
    (drainHeapGo g l).Perm l ∧
    List.Pairwise (fun a b => a.timestamp ≤ b.timestamp) (drainHeapGo g l) := by
  intro g
  induction g with
  | zero =>
    intro l hg hord
    have hl : l = [] := List.length_eq_zero.mp (by omega)
    rw [hl]
    exact ⟨List.Perm.refl _, List.Pairwise.nil⟩
  | succ g ih =>
    intro l hg hord
    rw [drainHeapGo]
    split
    · next he =>
      simp only [List.isEmpty_iff] at he
      rw [he]
      simp
    · next he =>
      simp only [List.isEmpty_iff] at he
      have hlen : 0 < l.length := List.length_pos.mpr he
      obtain ⟨hfst, hperm, hord2⟩ := heapPop_spec he hord
      have hlen2 : (heapPop l).2.length = l.length - 1 := by
        have hle := hperm.length_eq
        simp only [List.length_cons] at hle
        omega
      obtain ⟨ihp, ihs⟩ := ih (heapPop l).2 (by omega) hord2
      refine ⟨(ihp.cons (heapPop l).1).trans hperm, ?_⟩
      refine List.Pairwise.cons ?_ ihs
      intro b hb
      have hbmem : b ∈ (heapPop l).2 := ihp.mem_iff.mp hb
      have hbl : b ∈ l := hperm.mem_iff.mp (List.mem_cons_of_mem _ hbmem)
      obtain ⟨idx, hidx⟩ := List.mem_iff_get.mp hbl
      rw [hfst, ← hidx, ← lGet_eq_get idx.2]
      exact heapOrd_root_min hord idx.1 idx.2

theorem drainHeap_spec (l : List Commit) (hord : heapOrd l) :
    (drainHeap l).Perm l ∧
    List.Pairwise (fun a b => a.timestamp ≤ b.timestamp) (drainHeap l) :=
  drainHeapGo_spec l.length l (le_refl _) hord

theorem heapOrd_nil : heapOrd [] := by
  intro a k hk hrel
  simp at hk

theorem foldl_heapPush_perm : ∀ (v acc : List Commit),
    (v.foldl heapPush acc).Perm (acc ++ v)
  | [], acc => by simp
  | x :: xs, acc => by
    simp only [List.foldl_cons]
    refine (foldl_heapPush_perm xs (heapPush acc x)).trans ?_
    have h1 : (heapPush acc x).Perm (acc ++ [x]) :=
      heapUp_perm acc.length (acc ++ [x]) (by simp)
    have h2 := h1.append_right xs
    rw [List.append_assoc] at h2
    exact h2

theorem foldl_heapPush_ord : ∀ (v acc : List Commit), heapOrd acc →
    heapOrd (v.foldl heapPush acc)
  | [], acc, h => h
  | x :: xs, acc, h => by
    simp only [List.foldl_cons]
    exact foldl_heapPush_ord xs (heapPush acc x) (heapPush_ord h x)

theorem buildHeap_perm (v : List Commit) : (buildHeap v).Perm v := by
  simpa using foldl_heapPush_perm v []

theorem buildHeap_ord (v : List Commit) : heapOrd (buildHeap v) :=
  foldl_heapPush_ord v [] heapOrd_nil

theorem sorted_perm_eq : ∀ {l1 l2 : List Commit}, l1.Perm l2 →
    List.Pairwise (fun a b => a.timestamp ≤ b.timestamp) l1 →
    List.Pairwise (fun a b => a.timestamp ≤ b.timestamp) l2 →
    (l1.map Commit.timestamp).Nodup → l1 = l2 := by
  intro l1 l2 hp h1 h2 hnd
  have hnd2 : (l2.map Commit.timestamp).Nodup := ((hp.map Commit.timestamp).nodup_iff).mp hnd
  have hne1 : List.Pairwise (fun a b : Commit => a.timestamp ≠ b.timestamp) l1 :=
    List.pairwise_map.mp hnd
  have hne2 : List.Pairwise (fun a b : Commit => a.timestamp ≠ b.timestamp) l2 :=
    List.pairwise_map.mp hnd2
  have hs1 : List.Pairwise (fun a b : Commit => a.timestamp < b.timestamp) l1 :=
    (h1.and hne1).imp (fun hab => lt_of_le_of_ne hab.1 hab.2)
  have hs2 : List.Pairwise (fun a b : Commit => a.timestamp < b.timestamp) l2 :=
    (h2.and hne2).imp (fun hab => lt_of_le_of_ne hab.1 hab.2)
  haveI : IsAntisymm Commit (fun a b => a.timestamp < b.timestamp) :=
    ⟨fun a b hab hba => absurd (hab.trans hba) (lt_irrefl _)⟩
  exact List.eq_of_perm_of_sorted hp hs1 hs2

theorem drainHeap_buildHeap_perm (v : List Commit) :
    (drainHeap (buildHeap v)).Perm v := by
  obtain ⟨hp, _⟩ := drainHeap_spec (buildHeap v) (buildHeap_ord v)
  exact hp.trans (buildHeap_perm v)

theorem drainHeap_buildHeap_sorted (v : List Commit) :
    List.Pairwise (fun a b => a.timestamp ≤ b.timestamp) (drainHeap (buildHeap v)) :=
  (drainHeap_spec (buildHeap v) (buildHeap_ord v)).2

theorem sortedSave_perm_eq {u w : List Commit} (hp : u.Perm w)
    (hnd : (w.map Commit.timestamp).Nodup) :
    drainHeap (buildHeap u) = drainHeap (buildHeap w) := by
  have h1 := drainHeap_buildHeap_perm u
  have h2 := drainHeap_buildHeap_perm w
  have hperm : (drainHeap (buildHeap u)).Perm (drainHeap (buildHeap w)) :=
    (h1.trans hp).trans h2.symm
  have hnd1 : ((drainHeap (buildHeap u)).map Commit.timestamp).Nodup :=
    (((h1.trans hp).map Commit.timestamp).nodup_iff).mpr hnd
  exact sorted_perm_eq hperm (drainHeap_buildHeap_sorted u) (drainHeap_buildHeap_sorted w) hnd1

theorem drainHeap_buildHeap_of_sorted (v : List Commit)
    (hs : List.Pairwise (fun a b => a.timestamp ≤ b.timestamp) v)
    (hnd : (v.map Commit.timestamp).Nodup) :
    drainHeap (buildHeap v) = v :=
  sorted_perm_eq (drainHeap_buildHeap_perm v) (drainHeap_buildHeap_sorted v) hs
    ((((drainHeap_buildHeap_perm v).map Commit.timestamp).nodup_iff).mpr hnd)

theorem natDecGo_acc : ∀ (fuel n : Nat) (acc : Str),
    natDecGo fuel n acc = natDecGo fuel n [] ++ acc
  | 0, n, acc => rfl
  | fuel + 1, n, acc => by
    simp only [natDecGo]
    split
    · rfl
    · rw [natDecGo_acc fuel (n / 10) (digitChar (n % 10) :: acc),
        natDecGo_acc fuel (n / 10) [digitChar (n % 10)]]
      simp

theorem digitChar_spec {d : Nat} (h : d < 10) :
    isDigitCh (digitChar d) = true ∧ (digitChar d).toNat - 48 = d := by
  interval_cases d <;> exact ⟨by decide, by decide⟩

theorem decVal_append (ds : Str) (c : Char) :
    decVal (ds ++ [c]) = decVal ds * 10 + (c.toNat - 48) := by
  simp [decVal, List.foldl_append]

theorem natDecGo_spec : ∀ (fuel n : Nat), n < fuel →
    natDecGo fuel n [] ≠ [] ∧ (natDecGo fuel n []).all isDigitCh = true ∧
    decVal (natDecGo fuel n []) = n := by
  intro fuel
  induction fuel with
  | zero => intro n h; omega
  | succ fuel ih =>
    intro n h
    simp only [natDecGo]
    split
    · next h10 =>
      have hd := digitChar_spec (Nat.mod_lt n (by omega))
      refine ⟨by simp, ?_, ?_⟩
      · simp [List.all_cons, hd.1]
      · simp only [decVal, List.foldl_cons, List.foldl_nil]
        rw [Nat.zero_mul, Nat.zero_add, hd.2, Nat.mod_eq_of_lt h10]
    · next h10 =>
      have hrec : n / 10 < fuel := by omega
      have hd := digitChar_spec (Nat.mod_lt n (by omega))
      obtain ⟨hne, hall, hval⟩ := ih (n / 10) hrec
      rw [natDecGo_acc]
      refine ⟨by simp, ?_, ?_⟩
      · rw [List.all_append]
        simp [hall, List.all_cons, hd.1]
      · rw [decVal_append, hval, hd.2]
        omega

theorem natDec_spec (n : Nat) :
    natDec n ≠ [] ∧ (natDec n).all isDigitCh = true ∧ decVal (natDec n) = n :=
  natDecGo_spec (n + 1) n (by omega)

theorem parseNat_natDec (n : Nat) : parseNat (natDec n) = some n := by
  obtain ⟨h1, h2, h3⟩ := natDec_spec n
  rw [parseNat, if_pos ⟨h1, h2⟩, h3]

theorem parseInt_digits (cs : Str) (h : cs ≠ []) (hd : cs.all isDigitCh = true) :
    parseInt cs = some ((decVal cs : Nat) : Int) := by
  match cs, h with
  | c :: rest, _ =>
    have hc : isDigitCh c = true := by
      rw [List.all_cons] at hd
      exact (Bool.and_eq_true_iff.mp hd).1
    have h45 : c ≠ '-' := by
      intro e
      rw [e] at hc
      simp [isDigitCh] at hc
    have h43 : c ≠ '+' := by
      intro e
      rw [e] at hc
      simp [isDigitCh] at hc
    rw [parseInt]
    · rw [parseNat, if_pos ⟨by simp, hd⟩]
      rfl
    · intro r2 he
      injection he with e1 e2
      exact h45 e1
    · intro r2 he
      injection he with e1 e2
      exact h43 e1

theorem parseInt_natDec (n : Nat) : parseInt (natDec n) = some (n : Int) := by
  obtain ⟨h1, h2, h3⟩ := natDec_spec n
  rw [parseInt_digits (natDec n) h1 h2, h3]

theorem parseInt_intDec (t : Int) : parseInt (intDec t) = some t := by
  by_cases h : t < 0
  · rw [intDec, if_pos h, parseInt, parseNat_natDec]
    show some (-(((-t).toNat : Int))) = some t
    congr 1
    omega
  · rw [intDec, if_neg h, parseInt_natDec]
    congr 1
    omega

theorem getkv_append (pre s : Str) : getkv pre (pre ++ s) = some s := by
  rw [getkv, if_pos (List.isPrefixOf_iff_prefix.mpr (List.prefix_append pre s)),
    List.drop_left]

theorem getkvI_intDec (pre : Str) (t : Int) :
    getkvI pre (pre ++ intDec t) = some t := by
  rw [getkvI, getkv_append, Option.some_bind, parseInt_intDec]

theorem getkvI_natDec (pre : Str) (n : Nat) :
    getkvI pre (pre ++ natDec n) = some (n : Int) := by
  rw [getkvI, getkv_append, Option.some_bind, parseInt_natDec]

theorem splitSep_cons (sep c : Char) (rest : Str) :
    splitSep sep (c :: rest) =
      match splitSep sep rest with
      | [] => [[]]
      | w :: ws => if c = sep then [] :: w :: ws else (c :: w) :: ws := rfl

theorem splitSep_ne_nil (sep : Char) : ∀ (s : Str), splitSep sep s ≠ []
  | [] => by simp [splitSep]
  | c :: rest => by
    rw [splitSep_cons]
    rcases hs : splitSep sep rest with _ | ⟨w, ws⟩
    · simp
    · by_cases hc : c = sep
      · simp [hc]
      · simp [hc]

theorem splitSep_no_sep (sep : Char) : ∀ (w : Str), sep ∉ w → splitSep sep w = [w]
  | [], _ => rfl
  | c :: rest, h => by
    rw [splitSep_cons, splitSep_no_sep sep rest (fun hm => h (List.mem_cons_of_mem c hm))]
    show (if c = sep then [] :: rest :: [] else (c :: rest) :: []) = [c :: rest]
    rw [if_neg (fun hc : c = sep => h (by rw [hc]; exact List.mem_cons_self sep rest))]

theorem splitSep_append (sep : Char) : ∀ (w t : Str), sep ∉ w →
    splitSep sep (w ++ sep :: t) = w :: splitSep sep t
  | [], t, _ => by
    show splitSep sep (sep :: t) = [] :: splitSep sep t
    rw [splitSep_cons]
    rcases hs : splitSep sep t with _ | ⟨w2, ws⟩
    · exact absurd hs (splitSep_ne_nil sep t)
    · show (if sep = sep then [] :: w2 :: ws else (sep :: w2) :: ws) = [] :: w2 :: ws
      rw [if_pos rfl]
  | c :: w, t, h => by
    show splitSep sep (c :: (w ++ sep :: t)) = (c :: w) :: splitSep sep t
    rw [splitSep_cons, splitSep_append sep w t (fun hm => h (List.mem_cons_of_mem c hm))]
    show (if c = sep then [] :: w :: splitSep sep t else (c :: w) :: splitSep sep t) =
      (c :: w) :: splitSep sep t
    rw [if_neg (fun hc : c = sep => h (by rw [hc]; exact List.mem_cons_self sep w))]

theorem splitSep_joinSep (sep : Char) : ∀ (parts : List Str),
    (∀ p ∈ parts, sep ∉ p) → parts ≠ [] →
    splitSep sep (joinSep [sep] parts) = parts
  | [], _, hne => absurd rfl hne
  | [p], h, _ => by
    show splitSep sep p = [p]
    exact splitSep_no_sep sep p (h p (List.mem_singleton.mpr rfl))
  | p :: q :: rest, h, _ => by
    show splitSep sep (p ++ [sep] ++ joinSep [sep] (q :: rest)) = p :: q :: rest
    rw [List.append_assoc]
    show splitSep sep (p ++ sep :: joinSep [sep] (q :: rest)) = p :: q :: rest
    rw [splitSep_append sep p _ (h p (List.mem_cons_self p _)),
      splitSep_joinSep sep (q :: rest) (fun x hx => h x (List.mem_cons_of_mem p hx)) (by simp)]

theorem joinSep_ne_nil (sep : Str) : ∀ (parts : List Str), parts ≠ [] →
    (∀ p ∈ parts, p ≠ []) → joinSep sep parts ≠ []
  | [], hne, _ => absurd rfl hne
  | [p], _, h => by
    show p ≠ []
    exact h p (by simp)
  | p :: q :: rest, _, h => by
    show p ++ sep ++ joinSep sep (q :: rest) ≠ []
    have hp : p ≠ [] := h p (by simp)
    simp [hp]

theorem parts_roundtrip (ps : List String)
    (h : ∀ p ∈ ps, p.data ≠ [] ∧ ' ' ∉ p.data) :
    (if joinSpace (ps.map String.data) = [] then ([] : List String)
     else (splitSpace (joinSpace (ps.map String.data))).map String.mk) = ps := by
  rcases hps : ps with _ | ⟨p, rest⟩
  · rfl
  · rw [← hps]
    have hne : ps ≠ [] := by rw [hps]; simp
    have hjoin : joinSpace (ps.map String.data) ≠ [] := by
      refine joinSep_ne_nil [' '] (ps.map String.data) (by simp [hps]) ?_
      intro q hq
      obtain ⟨s, hs, rfl⟩ := List.mem_map.mp hq
      exact (h s hs).1
    rw [if_neg hjoin, splitSpace, joinSpace,
      splitSep_joinSep ' ' (ps.map String.data) ?_ (by simp [hps])]
    · rw [List.map_map]
      show ps.map (fun a => a) = ps
      exact List.map_id' ps
    · intro q hq
      obtain ⟨s, hs, rfl⟩ := List.mem_map.mp hq
      exact (h s hs).2

theorem string_mk_data (s : String) : String.mk s.data = s := rfl

theorem loadGraphGo_save : ∀ (recs : List Commit) (i : Nat),
    (∀ c ∈ recs, (∀ p ∈ c.parents, p.data ≠ [] ∧ ' ' ∉ p.data) ∧
                 (∀ q ∈ c.children, q.data ≠ [] ∧ ' ' ∉ q.data)) →
    loadGraphGo i (((List.enumFrom i recs).map
      (fun p => saveRecordLines p.1 p.2)).flatten) = some recs
  | [], i, h => rfl
  | r :: rs, i, h => by
    have hwf := h r (List.mem_cons_self r rs)
    have hih := loadGraphGo_save rs (i + 1) (fun c hc => h c (List.mem_cons_of_mem r hc))
    rw [List.enumFrom_cons, List.map_cons, List.flatten_cons]
    show loadGraphGo i
      (("-- ".data ++ natDec i) :: ("hash=".data ++ r.hash.data) ::
       ("timestamp=".data ++ intDec r.timestamp) :: ("name=".data ++ r.authorName.data) ::
       ("email=".data ++ r.authorEmail.data) :: ("notes=".data ++ notesFor r) ::
       ("parents=".data ++ joinSpace (r.parents.map String.data)) ::
       ("children=".data ++ joinSpace (r.children.map String.data)) ::
       ((List.enumFrom (i + 1) rs).map (fun p => saveRecordLines p.1 p.2)).flatten) =
      some (r :: rs)
    rw [loadGraphGo]
    rw [getkvI_natDec, getkv_append, getkvI_intDec, getkv_append, getkv_append,
      getkv_append, getkv_append, getkv_append]
    simp only [Option.bind_eq_bind, Option.some_bind, if_pos rfl, string_mk_data]
    rw [parts_roundtrip r.parents hwf.1, parts_roundtrip r.children hwf.2, hih]
    rfl

theorem loadFold_append : ∀ (recs : List Commit) (g0 : Graph),
    (∀ c ∈ recs, c.hash ∉ gKeys g0) → (recs.map Commit.hash).Nodup →
    recs.foldl (fun g c => gInsert g c.hash c) g0 = g0 ++ recs.map (fun c => (c.hash, c))
  | [], g0, _, _ => by simp
  | r :: rs, g0, hmem, hnd => by
    simp only [List.foldl_cons]
    have hr : r.hash ∉ gKeys g0 := hmem r (List.mem_cons_self r rs)
    have hins : gInsert g0 r.hash r = g0 ++ [(r.hash, r)] := by
      rw [gInsert, if_neg (fun hc => hr (List.elem_iff.mp hc))]
    rw [hins]
    have hnd0 : (r.hash :: rs.map Commit.hash).Nodup := by
      rw [List.map_cons] at hnd
      exact hnd
    have hnd2 := List.nodup_cons.mp hnd0
    have hmem2 : ∀ c ∈ rs, c.hash ∉ gKeys (g0 ++ [(r.hash, r)]) := by
      intro c hc hk
      rw [gKeys, List.map_append] at hk
      rcases List.mem_append.mp hk with hk1 | hk1
      · exact hmem c (List.mem_cons_of_mem r hc) hk1
      · have : c.hash = r.hash := by simpa using hk1
        exact hnd2.1 (this ▸ List.mem_map_of_mem Commit.hash hc)
    rw [loadFold_append rs (g0 ++ [(r.hash, r)]) hmem2 hnd2.2, List.append_assoc]
    rfl

theorem graphValues_of_fold (recs : List Commit) (hnd : (recs.map Commit.hash).Nodup) :
    graphValues (recs.foldl (fun g c => gInsert g c.hash c) []) = recs := by
  rw [loadFold_append recs [] (fun c hc hk => by simp [gKeys] at hk) hnd]
  rw [graphValues, List.nil_append, List.map_map]
  show recs.map (fun a => a) = recs
  exact List.map_id' recs

theorem saveLines_eq_of_perm {u w : List Commit} (hp : u.Perm w)
    (hnd : (w.map Commit.timestamp).Nodup) :
    SaveOneGraphLines u = SaveOneGraphLines w := by
  rw [SaveOneGraphLines, SaveOneGraphLines, sortedSave_perm_eq hp hnd]

theorem graphValues_pair_map (l : List Commit) :
    graphValues (l.map (fun c => (c.hash, c))) = l := by
  rw [graphValues, List.map_map]
  show l.map (fun a => a) = l
  exact List.map_id' l

theorem loadOneGraph_save (values : List Commit)
    (hh : (values.map Commit.hash).Nodup)
    (hwf : ∀ c ∈ values, (∀ p ∈ c.parents, p.data ≠ [] ∧ ' ' ∉ p.data) ∧
                         (∀ q ∈ c.children, q.data ≠ [] ∧ ' ' ∉ q.data)) :
    LoadOneGraph (SaveOneGraphLines values) =
      some ((drainHeap (buildHeap values)).map (fun c => (c.hash, c))) := by
  have hperm := drainHeap_buildHeap_perm values
  have hwf2 : ∀ c ∈ drainHeap (buildHeap values),
      (∀ p ∈ c.parents, p.data ≠ [] ∧ ' ' ∉ p.data) ∧
      (∀ q ∈ c.children, q.data ≠ [] ∧ ' ' ∉ q.data) :=
    fun c hc => hwf c (hperm.mem_iff.mp hc)
  have hh2 : ((drainHeap (buildHeap values)).map Commit.hash).Nodup :=
    ((hperm.map Commit.hash).nodup_iff).mpr hh
  simp only [LoadOneGraph, SaveOneGraphLines]
  rw [List.enum_eq_enumFrom, loadGraphGo_save _ 0 hwf2, Option.map_some']
  rw [loadFold_append (drainHeap (buildHeap values)) []
    (fun c hc hk => by simp [gKeys] at hk) hh2, List.nil_append]

/-! ## C3: save/load round-trip and heap-determined ordering -/

/-- C3 counterexample: the heap is keyed on the timestamp alone, so
tied timestamps break both halves of the claim.  With three commits
sharing a timestamp, Save(Load(Save(G))) is not byte-identical to
Save(G) (the drain re-orders tied records), and with two such commits
the saved bytes depend on the map iteration order that fed the heap. -/
theorem save_roundtrip_counterexample :
    (LoadOneGraph (SaveOneGraphLines [tieA, tieB, tieC])).map
        (fun g => SaveOneGraphFile (graphValues g)) ≠
      some (SaveOneGraphFile [tieA, tieB, tieC]) ∧
    SaveOneGraphFile [tieB, tieA] ≠ SaveOneGraphFile [tieA, tieB] :=
  ⟨by decide, by decide⟩

/-- C3 amended: when the commit timestamps are pairwise distinct (and
the hashes are unique and all parent/children entries are nonempty and
space-free, as for real git data), the save order is fully determined:
the saved bytes are identical across map iteration orders, LoadOneGraph
reconstructs exactly the logical records that were saved, and
Save(Load(Save(G))) is byte-identical to Save(G). -/
theorem save_roundtrip_distinct_timestamps (values v2 : List Commit)
    (hts : (values.map Commit.timestamp).Nodup)
    (hh : (values.map Commit.hash).Nodup)
    (hwf : ∀ c ∈ values, (∀ p ∈ c.parents, p.data ≠ [] ∧ ' ' ∉ p.data) ∧
                         (∀ q ∈ c.children, q.data ≠ [] ∧ ' ' ∉ q.data))
    (hperm : v2.Perm values) :
    SaveOneGraphFile v2 = SaveOneGraphFile values ∧
    ∃ g, LoadOneGraph (SaveOneGraphLines values) = some g ∧
      (graphValues g).Perm values ∧
      SaveOneGraphFile (graphValues g) = SaveOneGraphFile values := by
  have hperm0 := drainHeap_buildHeap_perm values
  refine ⟨?_, ⟨_, loadOneGraph_save values hh hwf, ?_, ?_⟩⟩
  · rw [SaveOneGraphFile, SaveOneGraphFile, saveLines_eq_of_perm hperm hts]
  · rw [graphValues_pair_map]
    exact hperm0
  · rw [graphValues_pair_map, SaveOneGraphFile, SaveOneGraphFile,
      saveLines_eq_of_perm hperm0 hts]

theorem save_roundtrip_distinct_timestamps_witness :
    ((saveValuesExample.map Commit.timestamp).Nodup ∧
     (saveValuesExample.map Commit.hash).Nodup ∧
     (∀ c ∈ saveValuesExample, (∀ p ∈ c.parents, p.data ≠ [] ∧ ' ' ∉ p.data) ∧
        (∀ q ∈ c.children, q.data ≠ [] ∧ ' ' ∉ q.data)) ∧
     saveValuesShuffled.Perm saveValuesExample) ∧
    (SaveOneGraphFile saveValuesShuffled = SaveOneGraphFile saveValuesExample ∧
     ∃ g, LoadOneGraph (SaveOneGraphLines saveValuesExample) = some g ∧
       (graphValues g).Perm saveValuesExample ∧
       SaveOneGraphFile (graphValues g) = SaveOneGraphFile saveValuesExample) :=
  ⟨⟨by decide, by decide, by decide, by decide⟩,
   save_roundtrip_distinct_timestamps saveValuesExample saveValuesShuffled
     (by decide) (by decide) (by decide) (by decide)⟩

end Vcsloc
